import Mathlib

/-!
Verification development for the lotto645 updater script
(`scripts/update_lotto645.mjs`, multi-source consensus version).

The script is shallowly embedded: JavaScript numbers are modelled by `JsNum`
(finite values as exact rationals, plus `NaN` and the two infinities; float
rounding/overflow is idealised away, which no stated theorem depends on),
fallible operations return `Option`, and the effectful `main` is modelled as a
pure function `runMain` of an environment that records the outcome of every
network fetch of the run.  Fan-out fetches (`Promise.allSettled`) complete in
nondeterministic order in JS; the latest-fetch result list is universally
quantified in the environment, and tail-validation fetches are modelled in
source-priority order (no theorem below depends on that order).
-/

/-- A JavaScript number: `NaN`, the infinities, or a finite value.  Finite
values are modelled as integers: every finite numeric value this script
manipulates (draw numbers, lottery numbers, counts) is integral; the only
fractional quantities are the decay weights, which occur exclusively inside
frequency-counter values, modelled separately as exact rationals. -/
inductive JsNum where
  | nan
  | inf
  | ninf
  | num (i : ℤ)
deriving DecidableEq, Repr

/-- `Number.isFinite`. -/
def JsNum.isFinite : JsNum → Bool
  | .num _ => true
  | _ => false

/-- The integer value of a finite `JsNum` (junk value `0` otherwise). -/
def JsNum.ival : JsNum → ℤ
  | .num i => i
  | _ => 0

/-- The finite value of a `JsNum`, if any. -/
def JsNum.finZ? : JsNum → Option ℤ
  | .num i => some i
  | _ => none

/-- JS `<` on numbers: any comparison with `NaN` is false. -/
def jsLt : JsNum → JsNum → Bool
  | .nan, _ => false
  | _, .nan => false
  | .ninf, .ninf => false
  | .ninf, _ => true
  | _, .ninf => false
  | .inf, _ => false
  | _, .inf => true
  | .num a, .num b => decide (a < b)

/-- JS `<=` on numbers: any comparison with `NaN` is false. -/
def jsLe : JsNum → JsNum → Bool
  | .nan, _ => false
  | _, .nan => false
  | .ninf, _ => true
  | _, .inf => true
  | .inf, _ => false
  | _, .ninf => false
  | .num a, .num b => decide (a ≤ b)

/-- JS `===` on numbers: `NaN === NaN` is false. -/
def jsStrictEq : JsNum → JsNum → Bool
  | .num a, .num b => decide (a = b)
  | .inf, .inf => true
  | .ninf, .ninf => true
  | _, _ => false

/-- JS addition (used by the frequency counters; float rounding idealised). -/
def jsAdd : JsNum → JsNum → JsNum
  | .nan, _ => .nan
  | _, .nan => .nan
  | .inf, .ninf => .nan
  | .ninf, .inf => .nan
  | .inf, _ => .inf
  | _, .inf => .inf
  | .ninf, _ => .ninf
  | _, .ninf => .ninf
  | .num a, .num b => .num (a + b)

/-- JS subtraction (used for `gap = latestNo - existingLastNo`). -/
def jsSub : JsNum → JsNum → JsNum
  | .nan, _ => .nan
  | _, .nan => .nan
  | .inf, .inf => .nan
  | .ninf, .ninf => .nan
  | .inf, _ => .inf
  | .ninf, _ => .ninf
  | .num _, .inf => .ninf
  | .num _, .ninf => .inf
  | .num a, .num b => .num (a - b)

/-- JS `String(n)` for a number; only used inside diagnostic note strings
(`gap=...`), about which nothing is claimed, so the exact format is
irrelevant. -/
def jsToString : JsNum → String
  | .nan => "NaN"
  | .inf => "Infinity"
  | .ninf => "-Infinity"
  | .num q => toString q

/-- The canonical draw record produced by `normalizeDraw`:
`{ drwNo, date, numbers, bonus }`. -/
structure DrawRecord where
  drwNo : JsNum
  date : String
  numbers : List JsNum
  bonus : JsNum
deriving DecidableEq, Repr

/-- The consensus signature `drwNo|numbers|b bonus|date` of `drawSig`,
modelled as the tuple of its fields.  Two records have equal JS signature
strings exactly when these tuples are equal (each numeric segment is the
unambiguous decimal rendering of one number, and the free-form date is the
final segment). -/
structure DrawSig where
  sigNo : JsNum
  sigNumbers : List JsNum
  sigBonus : JsNum
  sigDate : String
deriving DecidableEq, Repr

/-- `drawSig(d)`. -/
def drawSig (d : DrawRecord) : DrawSig :=
  { sigNo := d.drwNo, sigNumbers := d.numbers, sigBonus := d.bonus, sigDate := d.date }

/-- A raw source payload as seen by `normalizeDraw`: each field is the value
`Number(...)` would be applied to (`none` = absent), `numbers` is `some l`
when the field is an array whose elements coerce to the numbers in `l`, and
`date` is the raw date string if present. -/
structure RawDraw where
  draw_no : Option JsNum
  numbers : Option (List JsNum)
  bonus_no : Option JsNum
  date : Option String
deriving DecidableEq, Repr

/-- `Number(x)` for a possibly-absent field: `Number(undefined)` is `NaN`. -/
def numOf : Option JsNum → JsNum
  | none => .nan
  | some j => j

/-- `toYmd`: `null`/empty input gives `null`, strings of length at least 10
are truncated to their first 10 characters, shorter strings pass through. -/
def toYmd : Option String → Option String
  | none => none
  | some s => if s = "" then none else if 10 ≤ s.length then some (s.take 10) else some s

/-- One step of the insertion sort modelling `nums.slice().sort((a,b)=>a-b)`:
`x` is placed before the first element not strictly below it.  For lists of
finite numbers this computes exactly the JS result (the comparator is then
consistent and the ascending sort of a list of numbers is unique); with `NaN`
present the JS result is implementation-defined and this picks one
deterministic possibility. -/
def insNumAsc (x : JsNum) : List JsNum → List JsNum
  | [] => [x]
  | y :: ys => if jsLt y x then y :: insNumAsc x ys else x :: y :: ys

/-- `nums.slice().sort((a, b) => a - b)`. -/
def jsSortNums (l : List JsNum) : List JsNum := l.foldr insNumAsc []

/-- `normalizeDraw(item)`: requires a finite `Number(draw_no)`, exactly 6
entries in `numbers`, and a truthy date; stores the numbers sorted
ascending.  (`bonus_no` is coerced but never validated.) -/
def normalizeDraw (item : RawDraw) : Option DrawRecord :=
  let drwNo := numOf item.draw_no
  let nums := item.numbers.getD []
  let bonus := numOf item.bonus_no
  match toYmd item.date with
  | none => none
  | some ds =>
    if drwNo.isFinite && decide (nums.length = 6) then
      some { drwNo := drwNo, date := ds, numbers := jsSortNums nums, bonus := bonus }
    else none

/-- `Map.set` on an association list keyed by the finite draw number:
replaces the value in place if the key is present (keeping its insertion
position), else appends the new entry. -/
def setPair (k : ℤ) (d : DrawRecord) : List (ℤ × DrawRecord) → List (ℤ × DrawRecord)
  | [] => [(k, d)]
  | p :: ps => if p.1 = k then (k, d) :: ps else p :: setPair k d ps

/-- The `Map` built by `mergeByNo`: entries with a finite `Number(d.drwNo)`
are inserted left to right, later entries overwriting earlier ones with the
same key. -/
def buildMap (l : List DrawRecord) : List (ℤ × DrawRecord) :=
  l.foldl (fun m d =>
    match d.drwNo with
    | .num q => setPair q d m
    | _ => m) []

/-- One step of the insertion sort modelling `.sort((a,b)=>a.drwNo-b.drwNo)`
on records (same comparator discipline as `insNumAsc`). -/
def insByNo (x : DrawRecord) : List DrawRecord → List DrawRecord
  | [] => [x]
  | y :: ys => if jsLt y.drwNo x.drwNo then y :: insByNo x ys else x :: y :: ys

/-- `draws.sort((a, b) => a.drwNo - b.drwNo)`. -/
def sortByNo (l : List DrawRecord) : List DrawRecord := l.foldr insByNo []

/-- `mergeByNo(existingDraws, newDraws)`: key every record with a finite
`Number(drwNo)` into a map (incoming overwrites current per key), then return
the values sorted ascending by draw number. -/
def mergeByNo (existingDraws newDraws : List DrawRecord) : List DrawRecord :=
  sortByNo ((buildMap (existingDraws ++ newDraws)).map Prod.snd)

/-- The record a ledger list holds for finite draw number `q`: the last
entry with that key (the one `mergeByNo` would keep). -/
def lastRec (l : List DrawRecord) (q : ℤ) : Option DrawRecord :=
  (l.filter (fun d => decide (d.drwNo = JsNum.num q))).getLast?

/-- Whether a ledger list holds a record for finite draw number `q`. -/
def hasNo (l : List DrawRecord) (q : ℤ) : Bool := (lastRec l q).isSome

/-- A frequency counter: the JS object keyed by numbers, as a partial map
from the numeric key to its value (`none` = key absent).  Values are exact
rationals: raw counts and decay-weighted sums are both JS numbers, and on
every key the code can touch they stay finite. -/
def Counter : Type := ℤ → Option ℚ

/-- `initCounterInt` / `initCounterFloat`: keys `1..45` map to `0`
(`0` and `0.0` are the same JS number). -/
def initCounter : Counter := fun q =>
  if 1 ≤ q ∧ q ≤ 45 then some 0 else none

/-- `addCount(counter, n, w)`: adds `w` at key `n` when `n >= 1 && n <= 45`
(false for `NaN`).  The JS `undefined + w = NaN` case for an uninitialised
key is unreachable: the guard admits only keys `1..45`, which
`initCounterInt` populates (the `getD 0` default is never read). -/
def addCount (c : Counter) (n : JsNum) (w : ℚ) : Counter :=
  if jsLe (JsNum.num 1) n && jsLe n (JsNum.num 45) then
    match n with
    | .num q => fun k => if k = q then some ((c q).getD 0 + w) else c k
    | _ => c
  else c

/-- One recency window of `makeFreq` (`from`/`to` renamed `fromDate`/`toDate`,
`from` being reserved in Lean). -/
structure RecentWindow where
  fromDate : Option String
  toDate : Option String
  drawCount : Nat
  main : Counter
  bonus : Counter

/-- One decay-weighted recency window of `makeFreq`. -/
structure RecentWindowW where
  fromDate : Option String
  toDate : Option String
  drawCount : Nat
  decay : ℚ
  main : Counter
  bonus : Counter

/-- The value returned by `makeFreq`: overall tables plus the per-window
tables keyed by window size. -/
structure FreqResult where
  overallMain : Counter
  overallBonus : Counter
  recent : List (Nat × RecentWindow)
  recentWeighted : List (Nat × RecentWindowW)

/-- `RECENT_WINDOWS = [10, 20, 30]`. -/
def RECENT_WINDOWS : List Nat := [10, 20, 30]

/-- `DECAY = 0.95`. -/
def DECAY : ℚ := 0.95

/-- `makeFreq(draws)`.  The independent counters mutated in one JS loop are
folded separately (they share no state, so the result is identical);
`slice(-win)` is the suffix of the last `win` records. -/
def makeFreq (draws : List DrawRecord) : FreqResult :=
  let overallMain :=
    draws.foldl (fun c d => d.numbers.foldl (fun c2 n => addCount c2 n 1) c) initCounter
  let overallBonus := draws.foldl (fun c d => addCount c d.bonus 1) initCounter
  let mkWin := fun (win : Nat) =>
    let slice := draws.drop (draws.length - win)
    let newestFirst := slice.reverse
    let wmain := newestFirst.enum.foldl
      (fun c kd => kd.2.numbers.foldl (fun c2 x => addCount c2 x (DECAY ^ kd.1)) c) initCounter
    let wbonus := newestFirst.enum.foldl
      (fun c kd => addCount c kd.2.bonus (DECAY ^ kd.1)) initCounter
    let mainC := slice.foldl (fun c d => d.numbers.foldl (fun c2 x => addCount c2 x 1) c) initCounter
    let bonusC := slice.foldl (fun c d => addCount c d.bonus 1) initCounter
    let fromD := slice.head?.map DrawRecord.date
    let toD := slice.getLast?.map DrawRecord.date
    ((win, RecentWindow.mk fromD toD slice.length mainC bonusC),
     (win, RecentWindowW.mk fromD toD slice.length DECAY wmain wbonus))
  { overallMain := overallMain
    overallBonus := overallBonus
    recent := RECENT_WINDOWS.map (fun w => (mkWin w).1)
    recentWeighted := RECENT_WINDOWS.map (fun w => (mkWin w).2) }

/-- A fetch result tagged with the adapter that produced it
(the `{sourceId, url, draw}` records; the diagnostic `url` is omitted). -/
structure SourceResult where
  sourceId : String
  draw : DrawRecord
deriving DecidableEq, Repr

/-- The value returned by `pickConsensusLatest` (the purely diagnostic
`detail` field is omitted). -/
structure ConsensusOutcome where
  latestNo : JsNum
  consensusDraw : DrawRecord
  agreed : Bool
  consensusCount : Nat
deriving DecidableEq, Repr

/-- `Map` grouping step: push `x` into the group of key `k` (appending at the
group's insertion position) or append a new group at the end. -/
def addToGroup {κ α : Type} [DecidableEq κ] (k : κ) (x : α) :
    List (κ × List α) → List (κ × List α)
  | [] => [(k, [x])]
  | g :: gs => if g.1 = k then (g.1, g.2 ++ [x]) :: gs else g :: addToGroup k x gs

/-- Group a list by a key, preserving both the first-occurrence order of keys
(JS `Map` iteration order) and the input order within each group. -/
def groupByKey {κ α : Type} [DecidableEq κ] (key : α → κ) (l : List α) : List (κ × List α) :=
  l.foldl (fun gs x => addToGroup (key x) x gs) []

/-- Structural-recursion characterisation of `groupByKey`, used only in
proofs. -/
def groupsSpec {κ α : Type} [DecidableEq κ] (key : α → κ) : List α → List (κ × List α)
  | [] => []
  | x :: xs =>
    (key x, x :: xs.filter (fun y => decide (key y = key x))) ::
      groupsSpec key (xs.filter (fun y => decide (key y ≠ key x)))
termination_by l => l.length
decreasing_by
  simp only [List.length_cons]
  exact Nat.lt_succ_of_le (List.length_filter_le _ _)

/-- One step of the stable insertion sort modelling a JS stable
`.sort((a, b) => f(b) - f(a))` (descending by `f`, ties keeping input
order). -/
def insCountDesc {α : Type} (f : α → Nat) (x : α) : List α → List α
  | [] => [x]
  | y :: ys => if f x < f y then y :: insCountDesc f x ys else x :: y :: ys

/-- Stable descending sort by a natural measure.  JS `sort` is stable and
this comparator is consistent, so the JS result is exactly this list. -/
def stableSortDescBy {α : Type} (f : α → Nat) (l : List α) : List α :=
  l.foldr (insCountDesc f) []

/-- One step of the insertion sort modelling `.sort((a, b) => b - a)` on
numbers (descending; on the distinct finite keys it is applied to, the JS
result is exactly this list). -/
def insJsDesc (x : JsNum) : List JsNum → List JsNum
  | [] => [x]
  | y :: ys => if jsLt x y then y :: insJsDesc x ys else x :: y :: ys

/-- `[...byNo.keys()].sort((a, b) => b - a)`. -/
def sortJsDesc (l : List JsNum) : List JsNum := l.foldr insJsDesc []

/-- `pickConsensusLatest(latestResults)`.  Returns `none` exactly on the
empty input, where the JS code would throw a `TypeError` destructuring
`sigs[0]` (it is only ever called with a non-empty list). -/
def pickConsensusLatest (latestResults : List SourceResult) : Option ConsensusOutcome :=
  let byNo := groupByKey (fun r => r.draw.drwNo) latestResults
  let nos := sortJsDesc (byNo.map Prod.fst)
  let targetNo? :=
    match nos.find? (fun n => decide (2 ≤ ((byNo.lookup n).getD []).length)) with
    | some n => some n
    | none => nos.head?
  match targetNo? with
  | none => none
  | some targetNo =>
    let candidates := (byNo.lookup targetNo).getD []
    let bySig := groupByKey (fun r => drawSig r.draw) candidates
    let sigs := stableSortDescBy (fun g => g.2.length) bySig
    match sigs.head? with
    | none => none
    | some best =>
      match best.2.head? with
      | none => none
      | some r0 =>
        some { latestNo := targetNo, consensusDraw := r0.draw,
               agreed := decide (2 ≤ best.2.length), consensusCount := best.2.length }

/-- Support for a draw number among the latest-fetch results. -/
def supportCount (rs : List SourceResult) (n : JsNum) : Nat :=
  (rs.filter (fun r => decide (r.draw.drwNo = n))).length

/-- Support for a record's signature within a candidate group. -/
def sigCount (cands : List SourceResult) (d : DrawRecord) : Nat :=
  (cands.filter (fun r => decide (drawSig r.draw = drawSig d))).length

/-- `SOURCES`, by identifier, in priority order (the endpoint URLs are
transport plumbing and omitted). -/
def SOURCES : List String := ["smok95-pages", "smok95-raw", "smok95-jsdelivr"]

/-- `health.used`. -/
structure UsedInfo where
  mode : Option String
  sourceId : Option String
  note : Option String
deriving DecidableEq, Repr

/-- `health.validatedTail`. -/
structure TailStats where
  attempted : Nat
  patched : Nat
  mismatched : Nat
deriving DecidableEq, Repr

/-- The run health report (the purely diagnostic `latestConsensus` and
`latestFetchErrors` fields are omitted). -/
structure Health where
  status : String
  reasons : List String
  used : UsedInfo
  validatedTail : TailStats
deriving DecidableEq, Repr

/-- The health value initialised at the top of `main`. -/
def initialHealth : Health :=
  { status := "ok", reasons := [],
    used := { mode := none, sourceId := none, note := none },
    validatedTail := { attempted := 0, patched := 0, mismatched := 0 } }

/-- The environment of one run: the loaded ledger and the outcome of every
network fetch the run could make.  `latestResults` is the list collected by
`fetchLatestAllSources` (at most one entry per source, in nondeterministic
completion order, hence universally quantified); `srcAll sid` is the parsed
`all.json` array from source `sid` (`none` = fetch/parse failure or
non-array); `srcDraw sid n` is the parsed per-draw payload. -/
structure Env where
  existing : List DrawRecord
  latestResults : List SourceResult
  srcAll : String → Option (List RawDraw)
  srcDraw : String → ℤ → Option RawDraw

/-- `tryDrawFromSource(src, n)`: fetch and normalize one draw; a normalizer
rejection is a failure. -/
def tryDrawFromSource (env : Env) (sid : String) (n : ℤ) : Option SourceResult :=
  match env.srcDraw sid n with
  | none => none
  | some raw =>
    match normalizeDraw raw with
    | none => none
    | some d => some { sourceId := sid, draw := d }

/-- `tryAllFromSource(src)`: fetch `all.json`, require a non-empty array,
normalize each entry keeping the valid ones, require at least one, and sort
ascending by draw number. -/
def tryAllFromSource (env : Env) (sid : String) : Option (String × List DrawRecord) :=
  match env.srcAll sid with
  | none => none
  | some arr =>
    if arr.length = 0 then none
    else
      let mapped := arr.filterMap normalizeDraw
      if mapped.length = 0 then none else some (sid, sortByNo mapped)

/-- Try each source in priority order, returning the first success. -/
def firstSome {α : Type} (f : String → Option α) : List String → Option α
  | [] => none
  | s :: ss =>
    match f s with
    | some r => some r
    | none => firstSome f ss

/-- `fetchDrawWithFallback(n)`. -/
def fetchDrawWithFallback (env : Env) (n : ℤ) : Option SourceResult :=
  firstSome (fun sid => tryDrawFromSource env sid n) SOURCES

/-- `fetchAllWithFallback()`. -/
def fetchAllWithFallback (env : Env) : Option (String × List DrawRecord) :=
  firstSome (fun sid => tryAllFromSource env sid) SOURCES

/-- The per-draw fan-out of tail validation: each source fetched with
per-source failure isolation.  JS collects these in completion order; they
are modelled in priority order, and no theorem below depends on the order. -/
def tailFetch (env : Env) (n : ℤ) : List SourceResult :=
  SOURCES.filterMap (fun sid => tryDrawFromSource env sid n)

/-- `Math.max(...draws.map(d => Number(d.drwNo)).filter(Number.isFinite))`:
`-Infinity` when no entry has a finite draw number. -/
def maxFiniteNo (draws : List DrawRecord) : JsNum :=
  match (draws.filterMap (fun d => d.drwNo.finZ?)).max? with
  | none => JsNum.ninf
  | some m => JsNum.num m

/-- `draws.length ? Math.max(...) : 0`. -/
def lastNoOf (draws : List DrawRecord) : JsNum :=
  if draws.length = 0 then JsNum.num 0 else maxFiniteNo draws

/-- The health mutation of the incremental-fill failure branch. -/
def fillFail (h : Health) (n : ℤ) : Health :=
  { h with status := "degraded",
           reasons := h.reasons ++ ["incremental_fetch_failed_at_" ++ toString n],
           used := { h.used with note := some ("stopped_at=" ++ toString n) } }

/-- The incremental fill loop (`for (let n = currentLastNo + 1; n <= latestNo; n++)`):
fetch each draw with cross-adapter fallback and merge it immediately; on a
draw where every adapter fails, stop and mark degraded.  The fuel argument
only bounds the recursion; it is chosen so that it runs out exactly when
`n <= latestNo` first fails. -/
def fillLoop (env : Env) (latest : ℤ) : Nat → ℤ → List DrawRecord → Health →
    List DrawRecord × Health
  | 0, _, draws, h => (draws, h)
  | fuel + 1, n, draws, h =>
    if n ≤ latest then
      match fetchDrawWithFallback env n with
      | some got => fillLoop env latest fuel (n + 1) (mergeByNo draws [got.draw]) h
      | none => (draws, fillFail h n)
    else (draws, h)

/-- Lines 457-477: compute `currentLastNo` and run the fill loop when it is
below the target.  When either bound is not finite the loop body is never
entered with a finite counter in JS either (both bounds are finite on every
path reachable from normalized fetch results). -/
def runFill (env : Env) (cur latest : JsNum) (draws : List DrawRecord) (h : Health) :
    List DrawRecord × Health :=
  if jsLt cur latest then
    match cur, latest with
    | JsNum.num qc, JsNum.num qL => fillLoop env qL (Int.toNat (qL - qc)) (qc + 1) draws h
    | _, _ => (draws, h)
  else (draws, h)

/-- JS `Math.max` on two finite numbers. -/
def imax (a b : ℤ) : ℤ := if a ≤ b then b else a

/-- `VALIDATE_LAST_K = 5`. -/
def VALIDATE_LAST_K : ℤ := 5

/-- One iteration of tail validation for draw number `n`: best-effort
fan-out fetch, majority signature among at least 2 responders, patch the
ledger on mismatch. -/
def tailBody (env : Env) (n : ℤ) (draws : List DrawRecord) (h : Health) :
    List DrawRecord × Health :=
  let h1 := { h with validatedTail := { h.validatedTail with attempted := h.validatedTail.attempted + 1 } }
  let fetched := tailFetch env n
  if fetched.length < 2 then (draws, h1)
  else
    let bySig := groupByKey (fun r => drawSig r.draw) fetched
    let ranked := stableSortDescBy (fun g => g.2.length) bySig
    match ranked.head? with
    | none => (draws, h1)
    | some best =>
      if best.2.length < 2 then
        (draws, { h1 with status := "degraded",
                          reasons := h1.reasons ++ ["tail_" ++ toString n ++ "_no_2of3_consensus"] })
      else
        match best.2.head? with
        | none => (draws, h1)
        | some b =>
          let bestDraw := b.draw
          let localOk :=
            match draws.find? (fun d => jsStrictEq d.drwNo (JsNum.num n)) with
            | none => false
            | some localRec => decide (drawSig localRec = best.1)
          if localOk then (draws, h1)
          else
            let h2 := { h1 with validatedTail := { h1.validatedTail with mismatched := h1.validatedTail.mismatched + 1 } }
            let draws2 := mergeByNo draws [bestDraw]
            let h3 := { h2 with validatedTail := { h2.validatedTail with patched := h2.validatedTail.patched + 1 },
                                status := "degraded",
                                reasons := h2.reasons ++ ["tail_" ++ toString n ++ "_patched_from_consensus"] }
            (draws2, h3)

/-- The tail-validation loop (`for (let n = startValidate; n <= lastNoAfter; n++)`),
fuelled like `fillLoop`. -/
def tailLoop (env : Env) (lastA : ℤ) : Nat → ℤ → List DrawRecord → Health →
    List DrawRecord × Health
  | 0, _, draws, h => (draws, h)
  | fuel + 1, n, draws, h =>
    if n ≤ lastA then
      let dh := tailBody env n draws h
      tailLoop env lastA fuel (n + 1) dh.1 dh.2
    else (draws, h)

/-- Lines 488-535: `startValidate = Math.max(1, lastNoAfter - VALIDATE_LAST_K + 1)`
and the validation loop.  A non-finite `lastNoAfter` runs zero iterations
(it is the maximum over a non-empty merged ledger, hence always finite on
reachable paths). -/
def runTail (env : Env) (lastNoAfter : JsNum) (draws : List DrawRecord) (h : Health) :
    List DrawRecord × Health :=
  match lastNoAfter with
  | JsNum.num a =>
    let s := imax 1 (a - VALIDATE_LAST_K + 1)
    tailLoop env a (Int.toNat (a - s + 1)) s draws h
  | _ => (draws, h)

/-- The statistics payload written to the frequency file (`updatedAt` and the
static `source.endpoints` block are plumbing and omitted). -/
structure FreqPayload where
  schemaVersion : Nat
  health : Health
  lastDraw : DrawRecord
  totalDraws : Nat
  freq : FreqResult

/-- `SCHEMA_VERSION = 3`. -/
def SCHEMA_VERSION : Nat := 3

/-- Outcome of one run: an uncaught throw (non-zero exit via
`main().catch`), or both files written followed by exit 0. -/
inductive RunOutcome where
  | fatal (msg : String)
  | written (draws : List DrawRecord) (payload : FreqPayload)

/-- Lines 479-571: unconditionally merge the consensus record, run tail
validation, sort, fail fatally on an empty ledger, compute statistics, mark
degraded when the highest draw still trails the target, and write. -/
def postFillFinalize (env : Env) (consensus : ConsensusOutcome)
    (draws0 : List DrawRecord) (h0 : Health) : RunOutcome :=
  let draws1 := mergeByNo draws0 [consensus.consensusDraw]
  let lastNoAfter := lastNoOf draws1
  let dh := runTail env lastNoAfter draws1 h0
  let draws3 := sortByNo dh.1
  match draws3.getLast? with
  | none => RunOutcome.fatal "No draws available after update."
  | some last =>
    let freq := makeFreq draws3
    let h3 :=
      if jsLt last.drwNo consensus.latestNo then
        { dh.2 with status := "degraded", reasons := dh.2.reasons ++ ["local_last_is_behind_latest"] }
      else dh.2
    RunOutcome.written draws3
      { schemaVersion := SCHEMA_VERSION, health := h3, lastDraw := last,
        totalDraws := draws3.length, freq := freq }

/-- `BOOTSTRAP_GAP_THRESHOLD = 120`. -/
def BOOTSTRAP_GAP_THRESHOLD : ℤ := 120

/-- Lines 412-454 of `main` ("choose strategy"): bootstrap via `all.json`
when the local ledger is empty or the gap is large (accepting the bulk
payload wholesale from the first succeeding source, with the last-record
consistency checks), falling back to incremental mode; otherwise plain
incremental from the sorted local ledger. -/
def chooseStrategy (env : Env) (existingLastNo : JsNum) (h1 : Health)
    (consensus : ConsensusOutcome) : List DrawRecord × Health :=
  let latestNo := consensus.latestNo
  let gap := jsSub latestNo existingLastNo
  let needBootstrap :=
    jsStrictEq existingLastNo (JsNum.num 0) || jsLt (JsNum.num BOOTSTRAP_GAP_THRESHOLD) gap
  if needBootstrap then
    match fetchAllWithFallback env with
    | some all =>
      let draws := all.2
      let h2 := { h1 with used := { mode := some "bootstrap-all", sourceId := some all.1,
                                    note := some ("gap=" ++ jsToString gap) } }
      match draws.getLast? with
      | none => (draws, h2)
      | some last =>
        if jsStrictEq last.drwNo latestNo then
          if drawSig last = drawSig consensus.consensusDraw then (draws, h2)
          else
            (mergeByNo draws [consensus.consensusDraw],
             { h2 with status := "degraded",
                       reasons := h2.reasons ++ ["all_json_last_signature_mismatch_with_consensus"] })
        else
          (draws, { h2 with status := "degraded",
                            reasons := h2.reasons ++ ["all_json_last_draw_no_mismatch_with_latest"] })
    | none =>
      let h2 := { h1 with status := "degraded",
                          reasons := h1.reasons ++ ["bootstrap_all_failed_try_incremental"] }
      if jsLt (JsNum.num 0) existingLastNo then
        (env.existing, { h2 with used := { mode := some "incremental-from-local",
                                           sourceId := some "local-cache",
                                           note := some "bootstrap failed" } })
      else
        ([], { h2 with used := { mode := some "incremental-from-scratch",
                                 sourceId := some "multi",
                                 note := some "bootstrap failed" } })
  else
    (sortByNo env.existing,
     { h1 with used := { mode := some "incremental", sourceId := some "multi",
                         note := some ("gap=" ++ jsToString gap) } })

/-- `main()`, determinized over an environment.  File-system reads/writes and
logging are the plumbing outside the model; `RunOutcome.written` stands for
"both files written, exit 0" and `RunOutcome.fatal` for the `main().catch`
branch (exit 1). -/
def runMain (env : Env) : RunOutcome :=
  let existing := env.existing
  let existingLastNo := lastNoOf existing
  let h := initialHealth
  if env.latestResults.length = 0 then
    if 0 < existing.length then
      let h1 := { h with
        status := "degraded",
        reasons := h.reasons ++ ["latest_unavailable_all_sources_using_local_cache"],
        used := { mode := some "local-only", sourceId := some "local-cache",
                  note := some "No latest reachable" } }
      let draws := sortByNo existing
      match draws.getLast? with
      | none => RunOutcome.fatal "TypeError: reading last of empty draws"
      | some last =>
        RunOutcome.written draws
          { schemaVersion := SCHEMA_VERSION, health := h1, lastDraw := last,
            totalDraws := draws.length, freq := makeFreq draws }
    else RunOutcome.fatal "No sources reachable for latest, and no local cache."
  else
    match pickConsensusLatest env.latestResults with
    | none => RunOutcome.fatal "TypeError: destructuring sigs[0] of undefined"
    | some consensus =>
      let h1 :=
        if consensus.agreed then h
        else { h with status := "degraded", reasons := h.reasons ++ ["latest_consensus_not_2of3"] }
      let branch := chooseStrategy env existingLastNo h1 consensus
      let currentLastNo := lastNoOf branch.1
      let dh := runFill env currentLastNo consensus.latestNo branch.1 branch.2
      postFillFinalize env consensus dh.1 dh.2

/-- The ledger file contents of a completed run. -/
def writtenDraws : RunOutcome → Option (List DrawRecord)
  | RunOutcome.fatal _ => none
  | RunOutcome.written draws _ => some draws

/-- The health report of a completed run. -/
def writtenHealth : RunOutcome → Option Health
  | RunOutcome.fatal _ => none
  | RunOutcome.written _ p => some p.health

/-- Whether the run aborted with a non-zero exit. -/
def isFatalRun : RunOutcome → Bool
  | RunOutcome.fatal _ => true
  | RunOutcome.written _ _ => false

/-- The successes-so-far prefix of the fill loop, used to state what the loop
has merged before its first total failure. -/
def fillMergedPrefix (env : Env) : ℤ → Nat → List DrawRecord → List DrawRecord
  | _, 0, draws => draws
  | start, k + 1, draws =>
    match fetchDrawWithFallback env start with
    | some got => fillMergedPrefix env (start + 1) k (mergeByNo draws [got.draw])
    | none => draws

/-- Build a well-formed record from rationals (test fixture helper). -/
def mkRec (n : ℤ) (date : String) (nums : List ℤ) (b : ℤ) : DrawRecord :=
  { drwNo := JsNum.num n, date := date, numbers := nums.map JsNum.num, bonus := JsNum.num b }

/-- A raw payload that normalizes to `mkRec n date nums b` when `date` is
already a plain `YYYY-MM-DD` string and `nums` is sorted. -/
def mkRaw (n : ℤ) (date : String) (nums : List ℤ) (b : ℤ) : RawDraw :=
  { draw_no := some (JsNum.num n), numbers := some (nums.map JsNum.num),
    bonus_no := some (JsNum.num b), date := some date }

/-- Fixture: identical latest record as seen from the three sources. -/
def recL : DrawRecord := mkRec 101 "2020-01-04" [1, 2, 3, 4, 5, 6] 7

/-- Fixture: a conflicting record for the same draw number. -/
def recLB : DrawRecord := mkRec 101 "2020-01-04" [1, 2, 3, 4, 5, 8] 9

/-- Fixture: a third pairwise-distinct record for the same draw number. -/
def recLC : DrawRecord := mkRec 101 "2020-01-04" [11, 12, 13, 14, 15, 16] 17

/-- Fixture: a valid payload missing only `bonus_no`, with a non-positive
`draw_no`. -/
def rawNoBonus : RawDraw :=
  { draw_no := some (JsNum.num 0), numbers := some ([1, 2, 3, 4, 5, 6].map JsNum.num),
    bonus_no := none, date := some "2020-01-04T00:00:00Z" }

/-- Fixture: a payload whose six numbers are neither distinct nor in range. -/
def rawDup : RawDraw := mkRaw 1 "2020-01-04" [100, 7, 7, 7, 7, 7] 50

/-- Fixture environment for the bootstrap run: local ledger holds draw 1,
every source reports draw 200 as latest is out of reach except the first
source's bulk file, which contains only draw 200. -/
def rec200 : DrawRecord := mkRec 200 "2020-01-04" [1, 2, 3, 4, 5, 6] 7

/-- Fixture: the loaded ledger record the bootstrap run starts from. -/
def rec1 : DrawRecord := mkRec 1 "2002-12-07" [10, 23, 29, 33, 37, 40] 16

/-- Fixture environment whose bootstrap succeeds from the first source with a
bulk payload that lacks the locally-held draw number 1. -/
def envC1 : Env :=
  { existing := [rec1],
    latestResults := [{ sourceId := "smok95-pages", draw := rec200 }],
    srcAll := fun sid =>
      if sid = "smok95-pages" then some [mkRaw 200 "2020-01-04" [1, 2, 3, 4, 5, 6] 7] else none,
    srcDraw := fun _ _ => none }

/-- Fixture: a mid-ledger record for the incremental-mode runs. -/
def rec150 : DrawRecord := mkRec 150 "2019-01-05" [3, 8, 13, 25, 33, 41] 20

/-- Fixture environment for an incremental run: local ledger at draw 150,
one source reports draw 200 as latest, and every per-draw and bulk fetch
fails (so the fill loop stops at 151 and tail validation is a no-op). -/
def envIncr : Env :=
  { existing := [rec150],
    latestResults := [{ sourceId := "smok95-pages", draw := rec200 }],
    srcAll := fun _ => none,
    srcDraw := fun _ _ => none }

/-- Fixture environment for the local-only run: sources entirely dark but a
local ledger is present. -/
def envLocalOnly : Env :=
  { existing := [rec150],
    latestResults := [],
    srcAll := fun _ => none,
    srcDraw := fun _ _ => none }

/-- Fixture environment for the fill loop: draw 151 is available only from
the second source, draw 152 from none. -/
def envFill : Env :=
  { existing := [rec150],
    latestResults := [{ sourceId := "smok95-pages", draw := rec200 }],
    srcAll := fun _ => none,
    srcDraw := fun sid n =>
      if sid = "smok95-raw" ∧ n = 151
      then some (mkRaw 151 "2019-01-12" [5, 11, 19, 27, 36, 44] 2)
      else none }

/-- Key lookup in the association-list model of a JS `Map` (proof helper). -/
def lookupZ (q : ℤ) : List (ℤ × DrawRecord) → Option DrawRecord
  | [] => none
  | p :: ps => if p.1 = q then some p.2 else lookupZ q ps

/-! ### Lemmas about the merge machinery -/

theorem jsLt_finite_iff {j k : JsNum} (hj : j.isFinite = true) (hk : k.isFinite = true) :
    jsLt j k = true ↔ j.ival < k.ival := by
  cases j <;> cases k <;> simp_all [JsNum.isFinite, jsLt, JsNum.ival]

theorem isFinite_iff {j : JsNum} : j.isFinite = true ↔ ∃ i : ℤ, j = JsNum.num i := by
  cases j <;> simp [JsNum.isFinite]

theorem lookupZ_setPair (k q : ℤ) (d : DrawRecord) (m : List (ℤ × DrawRecord)) :
    lookupZ q (setPair k d m) = if q = k then some d else lookupZ q m := by
  induction m with
  | nil =>
    by_cases h : k = q
    · subst h
      simp [setPair, lookupZ]
    · have h2 : ¬ q = k := fun h3 => h h3.symm
      simp [setPair, lookupZ, h, h2]
  | cons p ps ih =>
    simp only [setPair]
    by_cases h1 : p.1 = k
    · by_cases h2 : q = k
      · subst h2
        simp [if_pos h1, lookupZ]
      · have hkq : ¬ k = q := fun h3 => h2 h3.symm
        have hpq : ¬ p.1 = q := by rw [h1]; exact hkq
        simp [if_pos h1, lookupZ, hkq, h2, hpq]
    · by_cases h2 : p.1 = q
      · have h3 : ¬ q = k := fun h3 => h1 (h2.trans h3)
        simp [if_neg h1, lookupZ, h2, h3]
      · simp [if_neg h1, lookupZ, h2, ih]

theorem mem_setPair {p : ℤ × DrawRecord} {k : ℤ} {d : DrawRecord}
    {m : List (ℤ × DrawRecord)} (h : p ∈ setPair k d m) : p = (k, d) ∨ p ∈ m := by
  induction m with
  | nil => simpa [setPair] using h
  | cons p0 ps ih =>
    simp only [setPair] at h
    by_cases h1 : p0.1 = k
    · simp only [if_pos h1, List.mem_cons] at h
      rcases h with h | h
      · exact Or.inl h
      · exact Or.inr (List.mem_cons_of_mem _ h)
    · simp only [if_neg h1, List.mem_cons] at h
      rcases h with h | h
      · exact Or.inr (h ▸ List.mem_cons_self _ _)
      · rcases ih h with h2 | h2
        · exact Or.inl h2
        · exact Or.inr (List.mem_cons_of_mem _ h2)

theorem mem_keys_setPair {a k : ℤ} {d : DrawRecord} {m : List (ℤ × DrawRecord)} :
    a ∈ (setPair k d m).map Prod.fst ↔ a = k ∨ a ∈ m.map Prod.fst := by
  induction m with
  | nil => simp [setPair]
  | cons p ps ih =>
    simp only [setPair]
    by_cases h1 : p.1 = k
    · simp only [if_pos h1, List.map_cons, List.mem_cons]
      constructor
      · rintro (h | h)
        · exact Or.inl h
        · exact Or.inr (Or.inr h)
      · rintro (h | h | h)
        · exact Or.inl h
        · exact Or.inl (h ▸ h1.symm ▸ rfl)
        · exact Or.inr h
    · simp only [if_neg h1, List.map_cons, List.mem_cons, ih]
      tauto

theorem keys_nodup_setPair {k : ℤ} {d : DrawRecord} {m : List (ℤ × DrawRecord)}
    (h : (m.map Prod.fst).Nodup) : ((setPair k d m).map Prod.fst).Nodup := by
  induction m with
  | nil => simp [setPair]
  | cons p ps ih =>
    simp only [List.map_cons, List.nodup_cons] at h
    simp only [setPair]
    by_cases h1 : p.1 = k
    · simp only [if_pos h1, List.map_cons, List.nodup_cons]
      exact ⟨h1 ▸ h.1, h.2⟩
    · simp only [List.map_cons, List.nodup_cons, if_neg h1]
      refine ⟨?_, ih h.2⟩
      rw [mem_keys_setPair]
      rintro (h2 | h2)
      · exact h1 h2
      · exact h.1 h2

theorem lookupZ_eq_some_iff {m : List (ℤ × DrawRecord)} (hnd : (m.map Prod.fst).Nodup)
    {q : ℤ} {d : DrawRecord} : lookupZ q m = some d ↔ (q, d) ∈ m := by
  induction m with
  | nil => simp [lookupZ]
  | cons p ps ih =>
    simp only [List.map_cons, List.nodup_cons] at hnd
    simp only [lookupZ, List.mem_cons]
    by_cases h1 : p.1 = q
    · simp only [if_pos h1]
      constructor
      · rintro h2
        exact Or.inl (by cases p; cases h2; simp_all)
      · rintro (h2 | h2)
        · cases p; cases h2; simp_all
        · exact absurd (h1 ▸ List.mem_map_of_mem Prod.fst h2) hnd.1
    · simp only [if_neg h1, ih hnd.2]
      constructor
      · exact Or.inr
      · rintro (h2 | h2)
        · cases p; cases h2; simp_all
        · exact h2

theorem lookupZ_isSome_mem_keys {m : List (ℤ × DrawRecord)} {q : ℤ} {d : DrawRecord}
    (h : lookupZ q m = some d) : q ∈ m.map Prod.fst := by
  induction m with
  | nil => simp [lookupZ] at h
  | cons p ps ih =>
    simp only [lookupZ] at h
    by_cases h1 : p.1 = q
    · subst h1
      simp
    · simp only [if_neg h1] at h
      simp [ih h]

theorem buildMap_append_one (l : List DrawRecord) (d : DrawRecord) :
    buildMap (l ++ [d]) =
      match d.drwNo with
      | JsNum.num q => setPair q d (buildMap l)
      | _ => buildMap l := by
  simp [buildMap, List.foldl_append]

theorem lookupZ_buildMap (l : List DrawRecord) (q : ℤ) :
    lookupZ q (buildMap l) = lastRec l q := by
  induction l using List.reverseRecOn with
  | nil => rfl
  | append_singleton l d ih =>
    rw [buildMap_append_one]
    have hfil : lastRec (l ++ [d]) q =
        ((l.filter (fun d => decide (d.drwNo = JsNum.num q))) ++
          ([d].filter (fun d => decide (d.drwNo = JsNum.num q)))).getLast? := by
      simp [lastRec, List.filter_append]
    cases hd : d.drwNo with
    | num i =>
      by_cases h : i = q
      · subst h
        rw [hfil]
        simp [lookupZ_setPair, hd, List.getLast?_append]
      · have h2 : ¬ q = i := fun h3 => h h3.symm
        rw [hfil]
        simp [lookupZ_setPair, hd, h, h2, List.getLast?_append, ih, lastRec]
    | nan =>
      rw [hfil]
      simp [hd, ih, lastRec]
    | inf =>
      rw [hfil]
      simp [hd, ih, lastRec]
    | ninf =>
      rw [hfil]
      simp [hd, ih, lastRec]

theorem buildMap_key_eq (l : List DrawRecord) : ∀ p ∈ buildMap l, p.2.drwNo = JsNum.num p.1 := by
  induction l using List.reverseRecOn with
  | nil => intro p hp; simp [buildMap] at hp
  | append_singleton l d ih =>
    intro p hp
    rw [buildMap_append_one] at hp
    cases hd : d.drwNo with
    | num i =>
      rw [hd] at hp
      rcases mem_setPair hp with h | h
      · subst h
        simpa using hd
      · exact ih p h
    | nan => rw [hd] at hp; exact ih p hp
    | inf => rw [hd] at hp; exact ih p hp
    | ninf => rw [hd] at hp; exact ih p hp

theorem buildMap_keys_nodup (l : List DrawRecord) : ((buildMap l).map Prod.fst).Nodup := by
  induction l using List.reverseRecOn with
  | nil => simp [buildMap]
  | append_singleton l d ih =>
    rw [buildMap_append_one]
    cases hd : d.drwNo with
    | num i => exact keys_nodup_setPair ih
    | nan => exact ih
    | inf => exact ih
    | ninf => exact ih

theorem filter_values_of_inv (m : List (ℤ × DrawRecord))
    (hkey : ∀ p ∈ m, p.2.drwNo = JsNum.num p.1)
    (hnd : (m.map Prod.fst).Nodup) (q : ℤ) :
    (m.map Prod.snd).filter (fun d => decide (d.drwNo = JsNum.num q)) =
      (match lookupZ q m with
       | some d => [d]
       | none => []) := by
  induction m with
  | nil => rfl
  | cons p ps ih =>
    simp only [List.map_cons, List.nodup_cons] at hnd
    have hkeyp := hkey p (List.mem_cons_self _ _)
    have ihp := ih (fun p2 hp2 => hkey p2 (List.mem_cons_of_mem _ hp2)) hnd.2
    simp only [List.map_cons, List.filter_cons, lookupZ]
    by_cases h1 : p.1 = q
    · subst h1
      have hdec : decide (p.2.drwNo = JsNum.num p.1) = true := by simp [hkeyp]
      have hnone : lookupZ p.1 ps = none := by
        cases hl : lookupZ p.1 ps with
        | none => rfl
        | some d2 => exact absurd (lookupZ_isSome_mem_keys hl) hnd.1
      rw [hnone] at ihp
      simp [hdec, ihp]
    · have hdec : decide (p.2.drwNo = JsNum.num q) = false := by
        simp only [decide_eq_false_iff_not, hkeyp]
        intro h2
        exact h1 (by injection h2)
      simp [hdec, h1, ihp]

theorem insByNo_perm (x : DrawRecord) (l : List DrawRecord) :
    (insByNo x l).Perm (x :: l) := by
  induction l with
  | nil => exact List.Perm.refl _
  | cons y ys ih =>
    simp only [insByNo]
    by_cases h : jsLt y.drwNo x.drwNo = true
    · simp only [h, if_true]
      exact (ih.cons y).trans (List.Perm.swap x y ys)
    · simp [h]

theorem sortByNo_perm (l : List DrawRecord) : (sortByNo l).Perm l := by
  induction l with
  | nil => exact List.Perm.refl _
  | cons y ys ih =>
    exact (insByNo_perm y (sortByNo ys)).trans (ih.cons y)

theorem lastRec_append (l1 l2 : List DrawRecord) (q : ℤ) :
    lastRec (l1 ++ l2) q = (lastRec l2 q).or (lastRec l1 q) := by
  simp [lastRec, List.filter_append, List.getLast?_append]

theorem lastRec_mergeByNo (e n : List DrawRecord) (q : ℤ) :
    lastRec (mergeByNo e n) q = (lastRec n q).or (lastRec e q) := by
  rw [← lastRec_append]
  have hperm : (mergeByNo e n).Perm ((buildMap (e ++ n)).map Prod.snd) := sortByNo_perm _
  have hfil := hperm.filter (fun d => decide (d.drwNo = JsNum.num q))
  rw [filter_values_of_inv _ (buildMap_key_eq _) (buildMap_keys_nodup _) q,
      lookupZ_buildMap] at hfil
  cases hl : lastRec (e ++ n) q with
  | none =>
    rw [hl] at hfil
    simp only [lastRec]
    rw [List.Perm.eq_nil hfil]
    rfl
  | some d =>
    rw [hl] at hfil
    simp only [lastRec]
    rw [List.perm_singleton.mp hfil]
    rfl

theorem mem_insByNo {a x : DrawRecord} {l : List DrawRecord} :
    a ∈ insByNo x l ↔ a = x ∨ a ∈ l :=
  ((insByNo_perm x l).mem_iff).trans (by simp)

theorem insByNo_pairwise_le {x : DrawRecord} {l : List DrawRecord}
    (hf : ∀ d ∈ l, d.drwNo.isFinite = true) (hx : x.drwNo.isFinite = true)
    (hs : l.Pairwise (fun a b => a.drwNo.ival ≤ b.drwNo.ival)) :
    (insByNo x l).Pairwise (fun a b => a.drwNo.ival ≤ b.drwNo.ival) := by
  induction l with
  | nil => simp [insByNo]
  | cons y ys ih =>
    have hy := hf y (List.mem_cons_self _ _)
    have hys := fun d hd => hf d (List.mem_cons_of_mem _ hd)
    rcases List.pairwise_cons.mp hs with ⟨hyrel, hstail⟩
    simp only [insByNo]
    by_cases h : jsLt y.drwNo x.drwNo = true
    · simp only [h, if_true]
      rw [List.pairwise_cons]
      refine ⟨?_, ih hys hstail⟩
      intro a ha
      rcases mem_insByNo.mp ha with rfl | ha
      · exact le_of_lt ((jsLt_finite_iff hy hx).mp h)
      · exact hyrel a ha
    · rw [if_neg h]
      rw [List.pairwise_cons]
      have hxy : x.drwNo.ival ≤ y.drwNo.ival := by
        by_contra h2
        exact h ((jsLt_finite_iff hy hx).mpr (lt_of_not_le h2))
      refine ⟨?_, hs⟩
      intro a ha
      rcases List.mem_cons.mp ha with rfl | ha
      · exact hxy
      · exact le_trans hxy (hyrel a ha)

theorem sortByNo_pairwise_le {l : List DrawRecord}
    (hf : ∀ d ∈ l, d.drwNo.isFinite = true) :
    (sortByNo l).Pairwise (fun a b => a.drwNo.ival ≤ b.drwNo.ival) := by
  induction l with
  | nil => simp [sortByNo]
  | cons y ys ih =>
    have hy := hf y (List.mem_cons_self _ _)
    have hys := fun d hd => hf d (List.mem_cons_of_mem _ hd)
    exact insByNo_pairwise_le
      (fun d hd => hys d ((sortByNo_perm ys).mem_iff.mp hd)) hy (ih hys)

theorem sortByNo_pairwise_lt {l : List DrawRecord}
    (hf : ∀ d ∈ l, d.drwNo.isFinite = true)
    (hnd : (l.map (fun d => d.drwNo.ival)).Nodup) :
    (sortByNo l).Pairwise (fun a b => a.drwNo.ival < b.drwNo.ival) := by
  have hle := sortByNo_pairwise_le hf
  have hndS : ((sortByNo l).map (fun d => d.drwNo.ival)).Nodup :=
    ((sortByNo_perm l).map _).nodup_iff.mpr hnd
  have hne : (sortByNo l).Pairwise (fun a b => a.drwNo.ival ≠ b.drwNo.ival) :=
    (List.pairwise_map).mp hndS
  exact (hle.and hne).imp (fun h => lt_of_le_of_ne h.1 h.2)

theorem sorted_eq_of_perm {l1 l2 : List DrawRecord}
    (hp : l1.Perm l2)
    (h1 : l1.Pairwise (fun a b => a.drwNo.ival < b.drwNo.ival))
    (h2 : l2.Pairwise (fun a b => a.drwNo.ival < b.drwNo.ival)) : l1 = l2 := by
  haveI : IsAntisymm DrawRecord (fun a b => a.drwNo.ival < b.drwNo.ival) :=
    ⟨fun _ _ ha hb => (lt_asymm ha hb).elim⟩
  exact List.eq_of_perm_of_sorted hp h1 h2

theorem mergeByNo_finite (e n : List DrawRecord) :
    ∀ d ∈ mergeByNo e n, d.drwNo.isFinite = true := by
  intro d hd
  have := (sortByNo_perm _).mem_iff.mp hd
  rcases List.mem_map.mp this with ⟨p, hp, rfl⟩
  rw [buildMap_key_eq _ p hp]
  rfl

theorem values_map_ival (m : List (ℤ × DrawRecord))
    (hkey : ∀ p ∈ m, p.2.drwNo = JsNum.num p.1) :
    (m.map Prod.snd).map (fun d => d.drwNo.ival) = m.map Prod.fst := by
  rw [List.map_map]
  exact List.map_congr_left (fun p hp => by simp [hkey p hp, JsNum.ival])

theorem mergeByNo_values_nodup (e n : List DrawRecord) :
    (((buildMap (e ++ n)).map Prod.snd).map (fun d => d.drwNo.ival)).Nodup := by
  rw [values_map_ival _ (buildMap_key_eq _)]
  exact buildMap_keys_nodup _

theorem mergeByNo_pairwise_lt (e n : List DrawRecord) :
    (mergeByNo e n).Pairwise (fun a b => a.drwNo.ival < b.drwNo.ival) := by
  unfold mergeByNo
  apply sortByNo_pairwise_lt
  · intro d hd
    rcases List.mem_map.mp hd with ⟨p, hp, rfl⟩
    rw [buildMap_key_eq _ p hp]
    rfl
  · exact mergeByNo_values_nodup e n

theorem mergeByNo_ext {e1 n1 e2 n2 : List DrawRecord}
    (h : ∀ q, lastRec (e1 ++ n1) q = lastRec (e2 ++ n2) q) :
    mergeByNo e1 n1 = mergeByNo e2 n2 := by
  have hm : (buildMap (e1 ++ n1)).Perm (buildMap (e2 ++ n2)) := by
    rw [List.perm_ext_iff_of_nodup ((buildMap_keys_nodup _).of_map _)
      ((buildMap_keys_nodup _).of_map _)]
    intro p
    cases p with
    | mk q d =>
      rw [← lookupZ_eq_some_iff (buildMap_keys_nodup _),
          ← lookupZ_eq_some_iff (buildMap_keys_nodup _),
          lookupZ_buildMap, lookupZ_buildMap, h]
  have hperm : (mergeByNo e1 n1).Perm (mergeByNo e2 n2) :=
    ((sortByNo_perm _).trans (hm.map Prod.snd)).trans (sortByNo_perm _).symm
  exact sorted_eq_of_perm hperm (mergeByNo_pairwise_lt _ _) (mergeByNo_pairwise_lt _ _)

theorem insNumAsc_perm (x : JsNum) (l : List JsNum) : (insNumAsc x l).Perm (x :: l) := by
  induction l with
  | nil => exact List.Perm.refl _
  | cons y ys ih =>
    simp only [insNumAsc]
    by_cases h : jsLt y x = true
    · simp only [h, if_true]
      exact (ih.cons y).trans (List.Perm.swap x y ys)
    · simp [h]

theorem jsSortNums_perm (l : List JsNum) : (jsSortNums l).Perm l := by
  induction l with
  | nil => exact List.Perm.refl _
  | cons y ys ih =>
    exact (insNumAsc_perm y (jsSortNums ys)).trans (ih.cons y)

theorem mem_insNumAsc {a x : JsNum} {l : List JsNum} :
    a ∈ insNumAsc x l ↔ a = x ∨ a ∈ l :=
  ((insNumAsc_perm x l).mem_iff).trans (by simp)

theorem insNumAsc_pairwise_le {x : JsNum} {l : List JsNum}
    (hf : ∀ d ∈ l, d.isFinite = true) (hx : x.isFinite = true)
    (hs : l.Pairwise (fun a b => a.ival ≤ b.ival)) :
    (insNumAsc x l).Pairwise (fun a b => a.ival ≤ b.ival) := by
  induction l with
  | nil => simp [insNumAsc]
  | cons y ys ih =>
    have hy := hf y (List.mem_cons_self _ _)
    have hys := fun d hd => hf d (List.mem_cons_of_mem _ hd)
    rcases List.pairwise_cons.mp hs with ⟨hyrel, hstail⟩
    simp only [insNumAsc]
    by_cases h : jsLt y x = true
    · simp only [h, if_true]
      rw [List.pairwise_cons]
      refine ⟨?_, ih hys hstail⟩
      intro a ha
      rcases mem_insNumAsc.mp ha with rfl | ha
      · exact le_of_lt ((jsLt_finite_iff hy hx).mp h)
      · exact hyrel a ha
    · rw [if_neg h]
      rw [List.pairwise_cons]
      have hxy : x.ival ≤ y.ival := by
        by_contra h2
        exact h ((jsLt_finite_iff hy hx).mpr (lt_of_not_le h2))
      refine ⟨?_, hs⟩
      intro a ha
      rcases List.mem_cons.mp ha with rfl | ha
      · exact hxy
      · exact le_trans hxy (hyrel a ha)

theorem jsSortNums_pairwise_le {l : List JsNum} (hf : ∀ d ∈ l, d.isFinite = true) :
    (jsSortNums l).Pairwise (fun a b => a.ival ≤ b.ival) := by
  induction l with
  | nil => simp [jsSortNums]
  | cons y ys ih =>
    have hy := hf y (List.mem_cons_self _ _)
    have hys := fun d hd => hf d (List.mem_cons_of_mem _ hd)
    exact insNumAsc_pairwise_le
      (fun d hd => hys d ((jsSortNums_perm ys).mem_iff.mp hd)) hy (ih hys)

theorem normalizeDraw_shape (item : RawDraw) (d : DrawRecord)
    (h : normalizeDraw item = some d) :
    d.numbers.length = 6 ∧
      ((∀ x ∈ d.numbers, x.isFinite = true) →
        d.numbers.Pairwise (fun a b => a.ival ≤ b.ival)) := by
  unfold normalizeDraw at h
  cases hd : toYmd item.date with
  | none => rw [hd] at h; cases h
  | some ds =>
    rw [hd] at h
    dsimp only at h
    by_cases hcond : ((numOf item.draw_no).isFinite
        && decide ((item.numbers.getD []).length = 6)) = true
    · rw [if_pos hcond] at h
      rw [Bool.and_eq_true] at hcond
      obtain ⟨_, h2⟩ := hcond
      cases h
      constructor
      · rw [(jsSortNums_perm _).length_eq]
        exact of_decide_eq_true h2
      · intro hfin
        exact jsSortNums_pairwise_le
          (fun x hx => hfin x ((jsSortNums_perm _).mem_iff.mpr hx))
    · rw [if_neg hcond] at h
      cases h

theorem normalizeDraw_some_iff (item : RawDraw) :
    (∃ d, normalizeDraw item = some d) ↔
      ((numOf item.draw_no).isFinite = true ∧ (item.numbers.getD []).length = 6 ∧
        (toYmd item.date).isSome = true) := by
  unfold normalizeDraw
  cases hd : toYmd item.date with
  | none => simp
  | some ds =>
    dsimp only
    simp only [Option.isSome_some, and_true]
    constructor
    · rintro ⟨d, hd2⟩
      by_cases hcond : ((numOf item.draw_no).isFinite
          && decide ((item.numbers.getD []).length = 6)) = true
      · rw [Bool.and_eq_true] at hcond
        exact ⟨hcond.1, of_decide_eq_true hcond.2⟩
      · rw [if_neg hcond] at hd2
        cases hd2
    · rintro ⟨h1, h2⟩
      rw [if_pos (by rw [Bool.and_eq_true]; exact ⟨h1, decide_eq_true h2⟩)]
      exact ⟨_, rfl⟩

/-- C8: merge is idempotent — for every ledger `L` and record set `X`,
`merge(L, merge(L, X)) = merge(L, X)`. -/
theorem C8_merge_idempotent (L X : List DrawRecord) :
    mergeByNo L (mergeByNo L X) = mergeByNo L X := by
  apply mergeByNo_ext
  intro q
  rw [lastRec_append, lastRec_append, lastRec_mergeByNo]
  cases lastRec X q <;> cases lastRec L q <;> rfl

/-- C4 counterexample: merging record sets `A` and `B` into the empty ledger
in the two orders yields different ledgers when `A` and `B` carry different
records for the same draw number 1, refuting order-insensitivity as stated. -/
theorem C4_counterexample :
    mergeByNo (mergeByNo [] [mkRec 1 "2020-01-04" [1, 2, 3, 4, 5, 6] 7])
        [mkRec 1 "2020-01-11" [1, 2, 3, 4, 5, 6] 7] ≠
      mergeByNo (mergeByNo [] [mkRec 1 "2020-01-11" [1, 2, 3, 4, 5, 6] 7])
        [mkRec 1 "2020-01-04" [1, 2, 3, 4, 5, 6] 7] := by decide

/-- C4 (amended): for any draw number shared between current and incoming the
incoming record (the last one the incoming set carries for that key) always
wins, and merging `A` then `B` into `L` equals merging `B` then `A` whenever
no draw number is carried by both `A` and `B`; with conflicting shared keys
the two orders genuinely differ (see the counterexample). -/
theorem C4_incoming_wins_and_disjoint_comm :
    (∀ (L X : List DrawRecord) (q : ℤ) (d : DrawRecord),
        lastRec X q = some d → lastRec (mergeByNo L X) q = some d) ∧
    (∀ L A B : List DrawRecord,
        (∀ q : ℤ, hasNo A q = false ∨ hasNo B q = false) →
        mergeByNo (mergeByNo L A) B = mergeByNo (mergeByNo L B) A) := by
  have toNone : ∀ (l : List DrawRecord) (q : ℤ), hasNo l q = false → lastRec l q = none := by
    intro l q h
    unfold hasNo at h
    cases hl : lastRec l q with
    | none => rfl
    | some d => rw [hl] at h; cases h
  constructor
  · intro L X q d h
    rw [lastRec_mergeByNo, h]
    rfl
  · intro L A B hdisj
    apply mergeByNo_ext
    intro q
    rw [lastRec_append, lastRec_append, lastRec_mergeByNo, lastRec_mergeByNo]
    rcases hdisj q with h | h
    · rw [toNone A q h]
      cases lastRec B q <;> cases lastRec L q <;> rfl
    · rw [toNone B q h]
      cases lastRec A q <;> cases lastRec L q <;> rfl

/-- Witness for C4's amended theorem at concrete inputs. -/
theorem C4_amended_witness :
    lastRec (mergeByNo [] [rec1]) 1 = some rec1 ∧
    mergeByNo (mergeByNo [] [rec1]) [rec200] = mergeByNo (mergeByNo [] [rec200]) [rec1] := by
  constructor
  · exact C4_incoming_wins_and_disjoint_comm.1 [] [rec1] 1 rec1 (by decide)
  · refine C4_incoming_wins_and_disjoint_comm.2 [] [rec1] [rec200] ?_
    intro q
    by_cases h : q = 1
    · subst h
      exact Or.inr (by decide)
    · left
      have : ¬ (JsNum.num (1 : ℤ) = JsNum.num q) := by
        intro h2
        exact h (by injection h2 with h3; exact h3.symm)
      simp [hasNo, lastRec, rec1, mkRec, this]

/-- C5 counterexample: a payload missing the required `bonus_no` field and
whose draw number is 0 (finite but not a positive integer) is still
accepted by `normalizeDraw`, refuting both "only if the draw number parses
to a finite positive integer ... and the bonus number parses to a finite
value" and "for any payload missing a required field, normalize reports
invalid". -/
theorem C5_counterexample :
    rawNoBonus.bonus_no = none ∧
    (numOf rawNoBonus.draw_no).ival = 0 ∧
    (numOf rawNoBonus.bonus_no).isFinite = false ∧
    (normalizeDraw rawNoBonus).isSome = true := by decide

/-- C5 (amended): `normalizeDraw` returns a record iff `Number(draw_no)` is
finite, the `numbers` field holds exactly 6 entries, and the date field is
present and non-empty (truncated to its first 10 characters when at least
that long); positivity and integrality of the draw number, finiteness of
the 6 main values, and the bonus value are not checked (a missing
`bonus_no` yields bonus `NaN`); on any violation it returns invalid
(`none`) rather than throwing (the function is total), and every record it
returns has exactly 6 main values, sorted ascending whenever they are all
finite. -/
theorem C5_normalize_amended :
    (∀ item : RawDraw,
        (∃ d, normalizeDraw item = some d) ↔
          ((numOf item.draw_no).isFinite = true ∧ (item.numbers.getD []).length = 6 ∧
            (toYmd item.date).isSome = true)) ∧
    (∀ (item : RawDraw) (d : DrawRecord), normalizeDraw item = some d →
        d.numbers.length = 6 ∧
          ((∀ x ∈ d.numbers, x.isFinite = true) →
            d.numbers.Pairwise (fun a b => a.ival ≤ b.ival))) :=
  ⟨normalizeDraw_some_iff, normalizeDraw_shape⟩

/-- Witness for C5's amended theorem at a concrete payload. -/
theorem C5_normalize_amended_witness :
    ([1, 2, 3, 4, 5, 6].map JsNum.num).Pairwise (fun a b => JsNum.ival a ≤ JsNum.ival b) ∧
    (∃ d, normalizeDraw (mkRaw 5 "2020-01-04" [3, 1, 2, 4, 6, 5] 7) = some d) := by
  constructor
  · exact (C5_normalize_amended.2 (mkRaw 5 "2020-01-04" [3, 1, 2, 4, 6, 5] 7)
      { drwNo := JsNum.num 5, date := "2020-01-04",
        numbers := [1, 2, 3, 4, 5, 6].map JsNum.num, bonus := JsNum.num 7 }
      (by decide)).2 (by decide)
  · exact (C5_normalize_amended.1 _).mpr (by decide)

/-- C6 counterexample: `normalizeDraw` accepts a payload whose six numbers
are neither pairwise distinct nor inside `[1,45]` and whose bonus is out of
range, so a record entering the ledger through normalization need not
satisfy the DrawRecord invariant. -/
theorem C6_counterexample :
    (normalizeDraw rawDup).isSome = true ∧
    (normalizeDraw rawDup).map (fun d => decide d.numbers.Nodup) = some false ∧
    (normalizeDraw rawDup).map
        (fun d => decide (∀ x ∈ d.numbers, 1 ≤ x.ival ∧ x.ival ≤ 45)) = some false ∧
    (normalizeDraw rawDup).map
        (fun d => decide (1 ≤ d.bonus.ival ∧ d.bonus.ival ≤ 45)) = some false := by decide

/-- C6 (amended): a record accepted by `normalizeDraw` is guaranteed only to
have exactly 6 main values, stored sorted ascending when they are all
finite; pairwise distinctness, membership in `[1,45]`, integrality, and the
bonus range are not enforced by normalization. -/
theorem C6_normalized_shape :
    ∀ (item : RawDraw) (d : DrawRecord), normalizeDraw item = some d →
      d.numbers.length = 6 ∧
        ((∀ x ∈ d.numbers, x.isFinite = true) →
          d.numbers.Pairwise (fun a b => a.ival ≤ b.ival)) :=
  normalizeDraw_shape

/-- Witness for C6's amended theorem at a concrete payload. -/
theorem C6_normalized_shape_witness :
    ([7, 7, 7, 7, 7, 100].map JsNum.num).length = 6 :=
  (C6_normalized_shape rawDup
    { drwNo := JsNum.num 1, date := "2020-01-04",
      numbers := [7, 7, 7, 7, 7, 100].map JsNum.num, bonus := JsNum.num 50 }
    (by decide)).1

/-- C9: the statistics aggregator applied to the empty ledger returns,
without any error (it is a total function), overall and per-window tables
mapping every number 1..45 to zero, with each window's from/to bounds null
and its draw count 0. -/
theorem C9_makeFreq_empty (i : ℤ) (h1 : 1 ≤ i) (h2 : i ≤ 45) :
    (makeFreq []).overallMain i = some 0 ∧
    (makeFreq []).overallBonus i = some 0 ∧
    (∀ w ∈ (makeFreq []).recent,
        w.2.fromDate = none ∧ w.2.toDate = none ∧ w.2.drawCount = 0 ∧
        w.2.main i = some 0 ∧ w.2.bonus i = some 0) ∧
    (∀ w ∈ (makeFreq []).recentWeighted,
        w.2.fromDate = none ∧ w.2.toDate = none ∧ w.2.drawCount = 0 ∧
        w.2.main i = some 0 ∧ w.2.bonus i = some 0) := by
  have hinit : initCounter i = some 0 := by
    unfold initCounter
    rw [if_pos ⟨h1, h2⟩]
  have hrec : (makeFreq []).recent =
      [(10, RecentWindow.mk none none 0 initCounter initCounter),
       (20, RecentWindow.mk none none 0 initCounter initCounter),
       (30, RecentWindow.mk none none 0 initCounter initCounter)] := rfl
  have hrecW : (makeFreq []).recentWeighted =
      [(10, RecentWindowW.mk none none 0 DECAY initCounter initCounter),
       (20, RecentWindowW.mk none none 0 DECAY initCounter initCounter),
       (30, RecentWindowW.mk none none 0 DECAY initCounter initCounter)] := rfl
  refine ⟨hinit, hinit, ?_, ?_⟩
  · intro w hw
    rw [hrec] at hw
    simp only [List.mem_cons, List.not_mem_nil, or_false] at hw
    rcases hw with h | h | h <;> (subst h; exact ⟨rfl, rfl, rfl, hinit, hinit⟩)
  · intro w hw
    rw [hrecW] at hw
    simp only [List.mem_cons, List.not_mem_nil, or_false] at hw
    rcases hw with h | h | h <;> (subst h; exact ⟨rfl, rfl, rfl, hinit, hinit⟩)

/-- Witness for C9 at number 7. -/
theorem C9_makeFreq_empty_witness : (makeFreq []).overallMain 7 = some 0 :=
  (C9_makeFreq_empty 7 (by decide) (by decide)).1

/-! ### Lemmas about grouping (JS `Map` based `groupBy`) -/

theorem keys_addToGroup_of_mem {κ α : Type} [DecidableEq κ] {k : κ} {x : α}
    {g : List (κ × List α)} (h : k ∈ g.map Prod.fst) :
    (addToGroup k x g).map Prod.fst = g.map Prod.fst := by
  induction g with
  | nil => simp at h
  | cons p ps ih =>
    simp only [addToGroup]
    by_cases h1 : p.1 = k
    · simp [h1]
    · simp only [List.map_cons, List.mem_cons] at h
      rcases h with h | h
      · exact absurd h.symm h1
      · rw [if_neg h1]
        simp only [List.map_cons]
        rw [ih h]

theorem addToGroup_of_not_mem {κ α : Type} [DecidableEq κ] {k : κ} {x : α}
    {g : List (κ × List α)} (h : k ∉ g.map Prod.fst) :
    addToGroup k x g = g ++ [(k, [x])] := by
  induction g with
  | nil => rfl
  | cons p ps ih =>
    simp only [List.map_cons, List.mem_cons, not_or] at h
    simp only [addToGroup]
    rw [if_neg (fun h2 => h.1 h2.symm)]
    rw [ih h.2]
    rfl

theorem keys_nodup_addToGroup {κ α : Type} [DecidableEq κ] {k : κ} {x : α}
    {g : List (κ × List α)} (hnd : (g.map Prod.fst).Nodup) :
    ((addToGroup k x g).map Prod.fst).Nodup := by
  by_cases h : k ∈ g.map Prod.fst
  · rw [keys_addToGroup_of_mem h]
    exact hnd
  · rw [addToGroup_of_not_mem h]
    have hk : (g ++ [(k, [x])]).map Prod.fst = g.map Prod.fst ++ [k] := by simp
    rw [hk]
    refine List.Nodup.append hnd (List.nodup_singleton _) ?_
    intro a ha hb
    simp only [List.mem_singleton] at hb
    exact h (hb ▸ ha)

theorem map_append_addToGroup {κ α : Type} [DecidableEq κ] (key : α → κ) (x : α)
    (xs : List α) (g : List (κ × List α)) (hnd : (g.map Prod.fst).Nodup)
    (hmem : key x ∈ g.map Prod.fst) :
    (addToGroup (key x) x g).map
        (fun p => (p.1, p.2 ++ xs.filter (fun y => decide (key y = p.1)))) =
      g.map (fun p => (p.1, p.2 ++ (x :: xs).filter (fun y => decide (key y = p.1)))) := by
  induction g with
  | nil => simp at hmem
  | cons p ps ih =>
    simp only [List.map_cons, List.nodup_cons] at hnd
    simp only [addToGroup]
    by_cases h1 : p.1 = key x
    · rw [if_pos h1]
      simp only [List.map_cons]
      congr 1
      · have hx : (x :: xs).filter (fun y => decide (key y = p.1)) =
            x :: xs.filter (fun y => decide (key y = p.1)) := by
          rw [List.filter_cons]
          simp [h1.symm]
        rw [hx]
        simp [List.append_assoc]
      · apply List.map_congr_left
        intro p2 hp2
        have hne : ¬ key x = p2.1 := by
          intro h2
          exact hnd.1 (h1.symm ▸ h2 ▸ List.mem_map_of_mem Prod.fst hp2)
        rw [List.filter_cons]
        simp [hne]
    · rw [if_neg h1]
      simp only [List.map_cons]
      congr 1
      · have h2 : ¬ key x = p.1 := fun h2 => h1 h2.symm
        rw [List.filter_cons]
        simp [h2]
      · apply ih hnd.2
        rcases List.mem_cons.mp hmem with h2 | h2
        · exact absurd h2.symm h1
        · exact h2

theorem foldl_addToGroup_eq {κ α : Type} [DecidableEq κ] (key : α → κ) (xs : List α) :
    ∀ g : List (κ × List α), (g.map Prod.fst).Nodup →
      xs.foldl (fun gs x => addToGroup (key x) x gs) g =
        (g.map (fun p => (p.1, p.2 ++ xs.filter (fun y => decide (key y = p.1))))) ++
          groupsSpec key (xs.filter (fun y => decide (key y ∉ g.map Prod.fst))) := by
  induction xs with
  | nil =>
    intro g hnd
    simp [groupsSpec]
  | cons x xs ih =>
    intro g hnd
    simp only [List.foldl_cons]
    by_cases hmem : key x ∈ g.map Prod.fst
    · rw [ih (addToGroup (key x) x g) (keys_nodup_addToGroup hnd)]
      congr 1
      · exact map_append_addToGroup key x xs g hnd hmem
      · rw [keys_addToGroup_of_mem hmem]
        congr 1
        rw [List.filter_cons]
        simp [hmem]
    · rw [ih _ (keys_nodup_addToGroup hnd), addToGroup_of_not_mem hmem, List.map_append,
        List.append_assoc]
      have hkeys : (g ++ [(key x, [x])]).map Prod.fst = g.map Prod.fst ++ [key x] := by simp
      have hx : (x :: xs).filter (fun y => decide (key y ∉ g.map Prod.fst)) =
          x :: xs.filter (fun y => decide (key y ∉ g.map Prod.fst)) := by
        rw [List.filter_cons]
        simp [hmem]
      rw [hkeys, hx, groupsSpec]
      congr 1
      · apply List.map_congr_left
        intro p hp
        have hne : ¬ key x = p.1 := fun h2 => hmem (h2 ▸ List.mem_map_of_mem Prod.fst hp)
        rw [List.filter_cons]
        simp [hne]
      · simp only [List.map_cons, List.map_nil, List.singleton_append]
        congr 2
        · rw [List.filter_filter]
          congr 1
          apply List.filter_congr
          intro y hy
          by_cases h2 : key y = key x
          · simp [h2, hmem]
          · simp [h2]
        · rw [List.filter_filter]
          apply List.filter_congr
          intro y hy
          by_cases h2 : key y ∈ g.map Prod.fst <;> by_cases h3 : key y = key x <;>
            simp [h2, h3]

theorem groupByKey_eq_groupsSpec {κ α : Type} [DecidableEq κ] (key : α → κ) (l : List α) :
    groupByKey key l = groupsSpec key l := by
  have h := foldl_addToGroup_eq key l [] (by simp)
  simp only [List.map_nil, List.nil_append] at h
  rw [groupByKey, h]
  congr 1
  apply List.filter_eq_self.mpr
  intro a ha
  simp

theorem groupsSpec_mem {κ α : Type} [DecidableEq κ] (key : α → κ) :
    ∀ (l : List α) (p : κ × List α), p ∈ groupsSpec key l →
      p.2 = l.filter (fun y => decide (key y = p.1)) ∧ p.2 ≠ [] := by
  intro l
  induction l using groupsSpec.induct key with
  | case1 =>
    intro p hp
    simp [groupsSpec] at hp
  | case2 x xs ih =>
    intro p hp
    rw [groupsSpec] at hp
    rcases List.mem_cons.mp hp with h | h
    · subst h
      constructor
      · rw [List.filter_cons]
        simp
      · simp
    · rcases ih p h with ⟨hcont, hne⟩
      have hk : key x ≠ p.1 := by
        intro h2
        apply hne
        rw [hcont, List.filter_filter]
        apply List.filter_eq_nil_iff.mpr
        intro a ha
        by_cases h3 : key a = key x
        · have h5 : ¬ key a ≠ key x := fun h6 => h6 h3
          simp [h5]
        · have h5 : ¬ key a = p.1 := fun h6 => h3 (h6.trans h2.symm)
          simp [h5]
      have hfe : (xs.filter (fun y => decide (key y ≠ key x))).filter
            (fun y => decide (key y = p.1)) = xs.filter (fun y => decide (key y = p.1)) := by
        rw [List.filter_filter]
        apply List.filter_congr
        intro a ha
        by_cases h3 : key a = p.1
        · have h4 : key a ≠ key x := fun h4 => hk (h4 ▸ h3)
          have h5 : ¬ p.1 = key x := fun h6 => h4 (h3.trans h6)
          simp [h3, h4, h5]
        · simp [h3]
      refine ⟨?_, hne⟩
      rw [hcont, hfe, List.filter_cons]
      have hd : decide (key x = p.1) = false := decide_eq_false hk
      simp [hd]

theorem groupsSpec_key_exists {κ α : Type} [DecidableEq κ] (key : α → κ) {l : List α}
    {p : κ × List α} (hp : p ∈ groupsSpec key l) : ∃ y ∈ l, key y = p.1 := by
  rcases groupsSpec_mem key l p hp with ⟨hcont, hne⟩
  cases he : p.2 with
  | nil => exact absurd he hne
  | cons z zs =>
    have hz : z ∈ l.filter (fun y => decide (key y = p.1)) := by
      rw [← hcont, he]
      exact List.mem_cons_self _ _
    rcases List.mem_filter.mp hz with ⟨hzl, hzp⟩
    exact ⟨z, hzl, of_decide_eq_true hzp⟩

theorem groupsSpec_keys_nodup {κ α : Type} [DecidableEq κ] (key : α → κ) :
    ∀ l : List α, ((groupsSpec key l).map Prod.fst).Nodup := by
  intro l
  induction l using groupsSpec.induct key with
  | case1 => simp [groupsSpec]
  | case2 x xs ih =>
    rw [groupsSpec]
    simp only [List.map_cons, List.nodup_cons]
    refine ⟨?_, ih⟩
    intro hmem
    rcases List.mem_map.mp hmem with ⟨p, hp, hkey⟩
    rcases groupsSpec_key_exists key hp with ⟨y, hy, hky⟩
    rcases List.mem_filter.mp hy with ⟨_, hyne⟩
    exact (of_decide_eq_true hyne) (hky.trans hkey)

theorem lookup_mem_assoc {κ β : Type} [DecidableEq κ] {l : List (κ × β)} {k : κ} {b : β}
    (h : l.lookup k = some b) : (k, b) ∈ l := by
  induction l with
  | nil => simp [List.lookup] at h
  | cons p ps ih =>
    rw [List.lookup] at h
    by_cases h1 : k = p.1
    · have hb : (k == p.1) = true := beq_iff_eq.mpr h1
      simp only [hb] at h
      cases h
      cases p
      simp_all
    · have hb : (k == p.1) = false := beq_eq_false_iff_ne.mpr h1
      simp only [hb] at h
      exact List.mem_cons_of_mem _ (ih h)

theorem lookup_groupsSpec {κ α : Type} [DecidableEq κ] (key : α → κ) :
    ∀ (l : List α) (k : κ),
      ((groupsSpec key l).lookup k).getD [] = l.filter (fun y => decide (key y = k)) := by
  intro l
  induction l using groupsSpec.induct key with
  | case1 =>
    intro k
    simp [groupsSpec, List.lookup]
  | case2 x xs ih =>
    intro k
    rw [groupsSpec, List.lookup]
    by_cases h1 : k = key x
    · have hb : (k == key x) = true := beq_iff_eq.mpr h1
      simp only [hb]
      subst h1
      rw [List.filter_cons]
      simp
    · have hb : (k == key x) = false := beq_eq_false_iff_ne.mpr h1
      simp only [hb]
      rw [ih k, List.filter_cons]
      have hd : decide (key x = k) = false := decide_eq_false (fun h2 => h1 h2.symm)
      simp only [hd, Bool.false_eq_true, if_false]
      rw [List.filter_filter]
      apply List.filter_congr
      intro a ha
      by_cases h3 : key a = k
      · have h4 : key a ≠ key x := fun h4 => h1 (h3.symm.trans h4)
        simp [h3, h4, h1]
      · simp [h3]

theorem groupsSpec_prefix_keys {κ α : Type} [DecidableEq κ] (key : α → κ) :
    ∀ (l : List α) (pre : List (κ × List α)) (k0 : κ) (xs0 : List α)
      (post : List (κ × List α)),
      groupsSpec key l = pre ++ (k0, xs0) :: post →
      ∀ u v : List α, l = u ++ v → (∀ y ∈ u, key y ≠ k0) →
      ∀ y ∈ u, key y ∈ pre.map Prod.fst := by
  intro l
  induction l using groupsSpec.induct key with
  | case1 =>
    intro pre k0 xs0 post heq u v huv hne y hy
    rw [groupsSpec] at heq
    exact absurd heq.symm (List.append_ne_nil_of_right_ne_nil _ (List.cons_ne_nil _ _))
  | case2 x xs ih =>
    intro pre k0 xs0 post heq u v huv hne y hy
    rw [groupsSpec] at heq
    cases u with
    | nil => simp at hy
    | cons u0 u2 =>
      have hx : u0 = x := by
        have := huv
        simp only [List.cons_append] at this
        exact (List.cons.injEq _ _ _ _ ▸ this).1.symm ▸ rfl
      subst hx
      have hxs : xs = u2 ++ v := by
        simpa using huv
      have hkx : key u0 ≠ k0 := hne u0 (List.mem_cons_self _ _)
      cases pre with
      | nil =>
        simp only [List.nil_append, List.cons.injEq] at heq
        exact absurd (congrArg Prod.fst heq.1) hkx
      | cons g0 pre2 =>
        simp only [List.cons_append, List.cons.injEq] at heq
        rcases heq with ⟨hg0, hrest⟩
        rcases List.mem_cons.mp hy with rfl | hy2
        · rw [← hg0]
          simp
        · by_cases hyx : key y = key u0
          · rw [← hg0, hyx]
            simp
          · have hyxs : y ∈ u2.filter (fun z => decide (key z ≠ key u0)) := by
              apply List.mem_filter.mpr
              exact ⟨hy2, decide_eq_true hyx⟩
            have hsplit : xs.filter (fun z => decide (key z ≠ key u0)) =
                u2.filter (fun z => decide (key z ≠ key u0)) ++
                  v.filter (fun z => decide (key z ≠ key u0)) := by
              rw [hxs, List.filter_append]
            have := ih pre2 k0 xs0 post hrest
              (u2.filter (fun z => decide (key z ≠ key u0)))
              (v.filter (fun z => decide (key z ≠ key u0))) hsplit
              (fun z hz => hne z (List.mem_cons_of_mem _ (List.mem_filter.mp hz).1))
              y hyxs
            simp only [← hg0, List.map_cons]
            exact List.mem_cons_of_mem _ this

theorem insCountDesc_perm {α : Type} (f : α → Nat) (x : α) (l : List α) :
    (insCountDesc f x l).Perm (x :: l) := by
  induction l with
  | nil => exact List.Perm.refl _
  | cons y ys ih =>
    simp only [insCountDesc]
    by_cases h : f x < f y
    · simp only [h, if_true]
      exact (ih.cons y).trans (List.Perm.swap x y ys)
    · simp [h]

theorem stableSortDescBy_perm {α : Type} (f : α → Nat) (l : List α) :
    (stableSortDescBy f l).Perm l := by
  induction l with
  | nil => exact List.Perm.refl _
  | cons y ys ih =>
    exact (insCountDesc_perm f y (stableSortDescBy f ys)).trans (ih.cons y)

theorem head_stableSortDescBy {α : Type} (f : α → Nat) :
    ∀ (l : List α) (x : α), (stableSortDescBy f l).head? = some x →
      x ∈ l ∧ (∀ y ∈ l, f y ≤ f x) ∧
        ∃ pre post, l = pre ++ x :: post ∧ ∀ y ∈ pre, f y < f x := by
  intro l
  induction l with
  | nil => intro x hx; simp [stableSortDescBy] at hx
  | cons a l ih =>
    intro x hx
    have hstep : stableSortDescBy f (a :: l) = insCountDesc f a (stableSortDescBy f l) := rfl
    rw [hstep] at hx
    cases hs : stableSortDescBy f l with
    | nil =>
      have hl : l = [] := by
        have hp := stableSortDescBy_perm f l
        rw [hs] at hp
        exact hp.symm.eq_nil
      rw [hs] at hx
      simp only [insCountDesc, List.head?_cons] at hx
      injection hx with hax
      subst hax
      subst hl
      refine ⟨List.mem_cons_self _ _, ?_, [], [], rfl, by simp⟩
      intro y hy
      simp only [List.mem_singleton] at hy
      subst hy
      exact le_refl _
    | cons b bs =>
      rw [hs] at hx
      rcases ih b (by rw [hs]; rfl) with ⟨hmemb, hmaxb, pre, post, hsplit, hpre⟩
      simp only [insCountDesc] at hx
      by_cases h : f a < f b
      · rw [if_pos h] at hx
        simp only [List.head?_cons] at hx
        injection hx with hbx
        subst hbx
        refine ⟨List.mem_cons_of_mem _ hmemb, ?_, a :: pre, post, by rw [hsplit]; rfl, ?_⟩
        · intro y hy
          rcases List.mem_cons.mp hy with rfl | hy
          · exact le_of_lt h
          · exact hmaxb y hy
        · intro y hy
          rcases List.mem_cons.mp hy with rfl | hy
          · exact h
          · exact hpre y hy
      · rw [if_neg h] at hx
        simp only [List.head?_cons] at hx
        injection hx with hax
        subst hax
        refine ⟨List.mem_cons_self _ _, ?_, [], l, rfl, by simp⟩
        intro y hy
        rcases List.mem_cons.mp hy with rfl | hy
        · exact le_refl _
        · exact le_trans (hmaxb y hy) (le_of_not_lt h)

theorem insJsDesc_perm (x : JsNum) (l : List JsNum) : (insJsDesc x l).Perm (x :: l) := by
  induction l with
  | nil => exact List.Perm.refl _
  | cons y ys ih =>
    simp only [insJsDesc]
    by_cases h : jsLt x y = true
    · simp only [h, if_true]
      exact (ih.cons y).trans (List.Perm.swap x y ys)
    · simp [h]

theorem sortJsDesc_perm (l : List JsNum) : (sortJsDesc l).Perm l := by
  induction l with
  | nil => exact List.Perm.refl _
  | cons y ys ih =>
    exact (insJsDesc_perm y (sortJsDesc ys)).trans (ih.cons y)

theorem mem_insJsDesc {a x : JsNum} {l : List JsNum} :
    a ∈ insJsDesc x l ↔ a = x ∨ a ∈ l :=
  ((insJsDesc_perm x l).mem_iff).trans (by simp)

theorem insJsDesc_pairwise_ge {x : JsNum} {l : List JsNum}
    (hf : ∀ d ∈ l, d.isFinite = true) (hx : x.isFinite = true)
    (hs : l.Pairwise (fun a b => b.ival ≤ a.ival)) :
    (insJsDesc x l).Pairwise (fun a b => b.ival ≤ a.ival) := by
  induction l with
  | nil => simp [insJsDesc]
  | cons y ys ih =>
    have hy := hf y (List.mem_cons_self _ _)
    have hys := fun d hd => hf d (List.mem_cons_of_mem _ hd)
    rcases List.pairwise_cons.mp hs with ⟨hyrel, hstail⟩
    simp only [insJsDesc]
    by_cases h : jsLt x y = true
    · rw [if_pos h]
      rw [List.pairwise_cons]
      refine ⟨?_, ih hys hstail⟩
      intro a ha
      rcases mem_insJsDesc.mp ha with rfl | ha
      · exact le_of_lt ((jsLt_finite_iff hx hy).mp h)
      · exact hyrel a ha
    · rw [if_neg h]
      rw [List.pairwise_cons]
      have hxy : y.ival ≤ x.ival := by
        by_contra h2
        exact h ((jsLt_finite_iff hx hy).mpr (lt_of_not_le h2))
      refine ⟨?_, hs⟩
      intro a ha
      rcases List.mem_cons.mp ha with rfl | ha
      · exact hxy
      · exact le_trans (hyrel a ha) hxy

theorem sortJsDesc_pairwise_ge {l : List JsNum} (hf : ∀ d ∈ l, d.isFinite = true) :
    (sortJsDesc l).Pairwise (fun a b => b.ival ≤ a.ival) := by
  induction l with
  | nil => simp [sortJsDesc]
  | cons y ys ih =>
    have hy := hf y (List.mem_cons_self _ _)
    have hys := fun d hd => hf d (List.mem_cons_of_mem _ hd)
    exact insJsDesc_pairwise_ge
      (fun d hd => hys d ((sortJsDesc_perm ys).mem_iff.mp hd)) hy (ih hys)

theorem sortJsDesc_pairwise_gt {l : List JsNum} (hf : ∀ d ∈ l, d.isFinite = true)
    (hnd : (l.map JsNum.ival).Nodup) :
    (sortJsDesc l).Pairwise (fun a b => b.ival < a.ival) := by
  have hge := sortJsDesc_pairwise_ge hf
  have hndS : ((sortJsDesc l).map JsNum.ival).Nodup :=
    ((sortJsDesc_perm l).map _).nodup_iff.mpr hnd
  have hne : (sortJsDesc l).Pairwise (fun a b => a.ival ≠ b.ival) :=
    (List.pairwise_map).mp hndS
  exact (hge.and hne).imp (fun h => lt_of_le_of_ne h.1 (Ne.symm h.2))

theorem find?_desc_sorted {p : JsNum → Bool} :
    ∀ {s : List JsNum}, s.Pairwise (fun a b => b.ival < a.ival) →
      ∀ {m : JsNum}, s.find? p = some m →
        p m = true ∧ m ∈ s ∧ ∀ y ∈ s, p y = true → y.ival ≤ m.ival := by
  intro s
  induction s with
  | nil => intro _ m hm; simp at hm
  | cons a s ih =>
    intro hs m hm
    rcases List.pairwise_cons.mp hs with ⟨harel, hstail⟩
    rw [List.find?_cons] at hm
    by_cases h : p a = true
    · rw [h] at hm
      simp only at hm
      injection hm with ham
      subst ham
      refine ⟨h, List.mem_cons_self _ _, ?_⟩
      intro y hy _
      rcases List.mem_cons.mp hy with rfl | hy
      · exact le_refl _
      · exact le_of_lt (harel y hy)
    · have hfa : p a = false := Bool.eq_false_iff.mpr h
      rw [hfa] at hm
      simp only at hm
      rcases ih hstail hm with ⟨hpm, hmem, hmax⟩
      refine ⟨hpm, List.mem_cons_of_mem _ hmem, ?_⟩
      intro y hy hpy
      rcases List.mem_cons.mp hy with rfl | hy
      · exact absurd hpy h
      · exact hmax y hy hpy

theorem head_desc_sorted_max {s : List JsNum} (hs : s.Pairwise (fun a b => b.ival < a.ival))
    {m : JsNum} (hm : s.head? = some m) : m ∈ s ∧ ∀ y ∈ s, y.ival ≤ m.ival := by
  cases s with
  | nil => simp at hm
  | cons a s =>
    simp only [List.head?_cons] at hm
    injection hm with ham
    subst ham
    rcases List.pairwise_cons.mp hs with ⟨harel, _⟩
    refine ⟨List.mem_cons_self _ _, ?_⟩
    intro y hy
    rcases List.mem_cons.mp hy with rfl | hy
    · exact le_refl _
    · exact le_of_lt (harel y hy)

theorem filter_head_split {α : Type} (p : α → Bool) :
    ∀ (l : List α) (r : α) (rest : List α), l.filter p = r :: rest →
      ∃ u v, l = u ++ r :: v ∧ ∀ y ∈ u, p y = false := by
  intro l
  induction l with
  | nil => intro r rest h; simp at h
  | cons a l ih =>
    intro r rest h
    rw [List.filter_cons] at h
    by_cases hp : p a = true
    · rw [hp] at h
      simp only [if_true] at h
      injection h with h1 h2
      subst h1
      exact ⟨[], l, rfl, by simp⟩
    · have hfa : p a = false := Bool.eq_false_iff.mpr hp
      rw [hfa] at h
      simp only [Bool.false_eq_true, if_false] at h
      rcases ih r rest h with ⟨u, v, hsplit, hu⟩
      refine ⟨a :: u, v, by rw [hsplit]; rfl, ?_⟩
      intro y hy
      rcases List.mem_cons.mp hy with rfl | hy
      · exact hfa
      · exact hu y hy

theorem find?_append_false {α : Type} (p : α → Bool) :
    ∀ (u : List α) (w : List α), (∀ y ∈ u, p y = false) →
      (u ++ w).find? p = w.find? p := by
  intro u
  induction u with
  | nil => intro w _; rfl
  | cons a u ih =>
    intro w hu
    rw [List.cons_append, List.find?_cons, hu a (List.mem_cons_self _ _)]
    simp only
    exact ih w (fun y hy => hu y (List.mem_cons_of_mem _ hy))

theorem lookup_none_iff {κ β : Type} [DecidableEq κ] {l : List (κ × β)} {k : κ} :
    l.lookup k = none ↔ k ∉ l.map Prod.fst := by
  induction l with
  | nil => simp [List.lookup]
  | cons p ps ih =>
    rw [List.lookup]
    by_cases h1 : k = p.1
    · have hb : (k == p.1) = true := beq_iff_eq.mpr h1
      simp only [hb]
      simp [h1]
    · have hb : (k == p.1) = false := beq_eq_false_iff_ne.mpr h1
      simp only [hb]
      simp [ih, h1]

theorem mem_keys_groupByKey {κ α : Type} [DecidableEq κ] (key : α → κ) (l : List α)
    (x : α) (hx : x ∈ l) : key x ∈ (groupByKey key l).map Prod.fst := by
  rw [groupByKey_eq_groupsSpec]
  by_contra h
  have hlk : (groupsSpec key l).lookup (key x) = none := lookup_none_iff.mpr h
  have heq := lookup_groupsSpec key l (key x)
  rw [hlk] at heq
  have hxf : x ∈ l.filter (fun y => decide (key y = key x)) :=
    List.mem_filter.mpr ⟨hx, by simp⟩
  rw [← heq] at hxf
  simp at hxf

theorem lookup_getD_groupByKey (rs : List SourceResult) (n : JsNum) :
    (((groupByKey (fun r => r.draw.drwNo) rs).lookup n).getD []) =
      rs.filter (fun r => decide (r.draw.drwNo = n)) := by
  rw [groupByKey_eq_groupsSpec, lookup_groupsSpec]

theorem pickConsensusLatest_eq_of (rs : List SourceResult) (n0 : JsNum)
    (best : DrawSig × List SourceResult) (r0 : SourceResult)
    (h1 : (match (sortJsDesc ((groupByKey (fun r => r.draw.drwNo) rs).map Prod.fst)).find?
          (fun n => decide (2 ≤ (((groupByKey (fun r => r.draw.drwNo) rs).lookup n).getD []).length)) with
        | some n => some n
        | none => (sortJsDesc ((groupByKey (fun r => r.draw.drwNo) rs).map Prod.fst)).head?) = some n0)
    (h2 : (stableSortDescBy (fun g => g.2.length)
        (groupByKey (fun r => drawSig r.draw)
          (((groupByKey (fun r => r.draw.drwNo) rs).lookup n0).getD []))).head? = some best)
    (h3 : best.2.head? = some r0) :
    pickConsensusLatest rs =
      some { latestNo := n0, consensusDraw := r0.draw,
             agreed := decide (2 ≤ best.2.length), consensusCount := best.2.length } := by
  unfold pickConsensusLatest
  simp only
  rw [h1]
  simp only
  rw [h2]
  simp only
  rw [h3]

theorem pickConsensus_props (rs : List SourceResult) (hne : rs ≠ [])
    (hfin : ∀ r ∈ rs, (r.draw.drwNo).isFinite = true)
    (hnd : (rs.map SourceResult.sourceId).Nodup) :
    ∃ out, pickConsensusLatest rs = some out ∧
      (∃ r ∈ rs, r.draw.drwNo = out.latestNo) ∧
      ((∃ r ∈ rs, 2 ≤ supportCount rs r.draw.drwNo) →
        2 ≤ supportCount rs out.latestNo ∧
          ∀ r ∈ rs, 2 ≤ supportCount rs r.draw.drwNo →
            r.draw.drwNo.ival ≤ out.latestNo.ival) ∧
      ((∀ r ∈ rs, supportCount rs r.draw.drwNo < 2) →
        ∀ r ∈ rs, r.draw.drwNo.ival ≤ out.latestNo.ival) ∧
      out.agreed = decide (2 ≤ out.consensusCount) ∧
      out.consensusCount =
        sigCount (rs.filter (fun r => decide (r.draw.drwNo = out.latestNo)))
          out.consensusDraw ∧
      (∀ r ∈ rs.filter (fun r => decide (r.draw.drwNo = out.latestNo)),
        sigCount (rs.filter (fun r2 => decide (r2.draw.drwNo = out.latestNo))) r.draw ≤
          out.consensusCount) ∧
      (∃ rfirst,
        (rs.filter (fun r => decide (r.draw.drwNo = out.latestNo))).find?
            (fun r => decide
              (sigCount (rs.filter (fun r2 => decide (r2.draw.drwNo = out.latestNo))) r.draw =
                out.consensusCount)) = some rfirst ∧
        out.consensusDraw = rfirst.draw) := by
  have hKfin : ∀ n ∈ (groupByKey (fun r => r.draw.drwNo) rs).map Prod.fst,
      n.isFinite = true := by
    intro n hn
    rw [groupByKey_eq_groupsSpec] at hn
    rcases List.mem_map.mp hn with ⟨p, hp, hp1⟩
    rcases groupsSpec_key_exists _ hp with ⟨y, hy, hky⟩
    rw [← hp1, ← hky]
    exact hfin y hy
  have hKnd : ((groupByKey (fun r => r.draw.drwNo) rs).map Prod.fst).Nodup := by
    rw [groupByKey_eq_groupsSpec]
    exact groupsSpec_keys_nodup _ _
  have hKnd2 : (((groupByKey (fun r => r.draw.drwNo) rs).map Prod.fst).map JsNum.ival).Nodup := by
    apply List.Nodup.map_on ?_ hKnd
    intro a ha b hb hab
    rcases isFinite_iff.mp (hKfin a ha) with ⟨i, rfl⟩
    rcases isFinite_iff.mp (hKfin b hb) with ⟨j, rfl⟩
    have : i = j := by simpa [JsNum.ival] using hab
    rw [this]
  have hsorted : (sortJsDesc ((groupByKey (fun r => r.draw.drwNo) rs).map Prod.fst)).Pairwise
      (fun a b => b.ival < a.ival) :=
    sortJsDesc_pairwise_gt hKfin hKnd2
  have hnosperm := sortJsDesc_perm ((groupByKey (fun r => r.draw.drwNo) rs).map Prod.fst)
  have hsupp : ∀ n, (((groupByKey (fun r => r.draw.drwNo) rs).lookup n).getD []).length
      = supportCount rs n := by
    intro n
    rw [lookup_getD_groupByKey]
    rfl
  have hmemnos : ∀ r ∈ rs, r.draw.drwNo ∈
      sortJsDesc ((groupByKey (fun r => r.draw.drwNo) rs).map Prod.fst) := by
    intro r hr
    exact hnosperm.mem_iff.mpr (mem_keys_groupByKey (fun r2 => r2.draw.drwNo) rs r hr)
  obtain ⟨n0, h1, hn0K, hBsome, hCnone⟩ :
      ∃ n0, (match (sortJsDesc ((groupByKey (fun r => r.draw.drwNo) rs).map Prod.fst)).find?
            (fun n => decide (2 ≤ (((groupByKey (fun r => r.draw.drwNo) rs).lookup n).getD []).length)) with
          | some n => some n
          | none => (sortJsDesc ((groupByKey (fun r => r.draw.drwNo) rs).map Prod.fst)).head?) = some n0 ∧
        n0 ∈ (groupByKey (fun r => r.draw.drwNo) rs).map Prod.fst ∧
        ((∃ r ∈ rs, 2 ≤ supportCount rs r.draw.drwNo) →
          2 ≤ supportCount rs n0 ∧
            ∀ r ∈ rs, 2 ≤ supportCount rs r.draw.drwNo → r.draw.drwNo.ival ≤ n0.ival) ∧
        ((∀ r ∈ rs, supportCount rs r.draw.drwNo < 2) →
          ∀ r ∈ rs, r.draw.drwNo.ival ≤ n0.ival) := by
    cases hfind : (sortJsDesc ((groupByKey (fun r => r.draw.drwNo) rs).map Prod.fst)).find?
        (fun n => decide (2 ≤ (((groupByKey (fun r => r.draw.drwNo) rs).lookup n).getD []).length)) with
    | some m =>
      rcases find?_desc_sorted hsorted hfind with ⟨hPm, hmmem, hmax⟩
      have hm2 : 2 ≤ supportCount rs m := by
        have := of_decide_eq_true hPm
        rwa [hsupp m] at this
      refine ⟨m, rfl, hnosperm.mem_iff.mp hmmem, ?_, ?_⟩
      · intro _
        refine ⟨hm2, ?_⟩
        intro r hr hr2
        apply hmax _ (hmemnos r hr)
        rw [decide_eq_true_iff]
        rw [hsupp]
        exact hr2
      · intro hall
        rcases List.mem_map.mp (hnosperm.mem_iff.mp hmmem) with ⟨p, hpmem, hp1⟩
        rw [groupByKey_eq_groupsSpec] at hpmem
        rcases groupsSpec_key_exists _ hpmem with ⟨y, hy, hky⟩
        have := hall y hy
        rw [hky, hp1] at this
        exact absurd hm2 (not_le_of_lt this)
    | none =>
      have hKne : (groupByKey (fun r => r.draw.drwNo) rs).map Prod.fst ≠ [] := by
        cases rs with
        | nil => exact absurd rfl hne
        | cons r rs2 =>
          rw [groupByKey_eq_groupsSpec, groupsSpec]
          simp
      cases hs : sortJsDesc ((groupByKey (fun r => r.draw.drwNo) rs).map Prod.fst) with
      | nil =>
        have hp2 := hnosperm
        rw [hs] at hp2
        exact absurd hp2.symm.eq_nil hKne
      | cons m ms =>
        have hhead : (sortJsDesc ((groupByKey (fun r => r.draw.drwNo) rs).map Prod.fst)).head?
            = some m := by rw [hs]; rfl
        rcases head_desc_sorted_max hsorted hhead with ⟨hmmem, hmmax⟩
        have hallfalse := List.find?_eq_none.mp hfind
        refine ⟨m, rfl, hnosperm.mem_iff.mp hmmem, ?_, ?_⟩
        · rintro ⟨r, hr, hr2⟩
          exfalso
          apply hallfalse _ (hmemnos r hr)
          rw [decide_eq_true_iff, hsupp]
          exact hr2
        · intro _
          intro r hr
          exact hmmax _ (hmemnos r hr)
  have hcne : rs.filter (fun r => decide (r.draw.drwNo = n0)) ≠ [] := by
    rw [groupByKey_eq_groupsSpec] at hn0K
    rcases List.mem_map.mp hn0K with ⟨p, hp, hp1⟩
    rcases groupsSpec_mem _ _ p hp with ⟨hcont, hne2⟩
    intro hnil
    apply hne2
    rw [hcont, hp1]
    exact hnil
  cases hcands : rs.filter (fun r => decide (r.draw.drwNo = n0)) with
  | nil => exact absurd hcands hcne
  | cons c0 cs =>
    have hbySigne : groupByKey (fun r => drawSig r.draw) (c0 :: cs) ≠ [] := by
      rw [groupByKey_eq_groupsSpec, groupsSpec]
      simp
    cases hsort : stableSortDescBy (fun g => g.2.length)
        (groupByKey (fun r => drawSig r.draw) (c0 :: cs)) with
    | nil =>
      have hp2 := stableSortDescBy_perm (fun g => g.2.length)
        (groupByKey (fun r => drawSig r.draw) (c0 :: cs))
      rw [hsort] at hp2
      exact absurd hp2.symm.eq_nil hbySigne
    | cons best bests =>
      rcases head_stableSortDescBy (fun g => g.2.length)
          (groupByKey (fun r => drawSig r.draw) (c0 :: cs)) best (by rw [hsort]; rfl)
        with ⟨hbestmem, hbestmax, preG, postG, hGsplit, hGpre⟩
      have hbestmem2 : best ∈ groupsSpec (fun r => drawSig r.draw) (c0 :: cs) := by
        rw [← groupByKey_eq_groupsSpec]
        exact hbestmem
      rcases groupsSpec_mem (fun r => drawSig r.draw) (c0 :: cs) best hbestmem2
        with ⟨hbcont, hbne⟩
      cases hb2 : best.2 with
      | nil => exact absurd hb2 hbne
      | cons r0 rest =>
        have h3 : best.2.head? = some r0 := by rw [hb2]; rfl
        have hlookupc : ((groupByKey (fun r => r.draw.drwNo) rs).lookup n0).getD []
            = c0 :: cs := by
          rw [lookup_getD_groupByKey, hcands]
        have h2 : (stableSortDescBy (fun g => g.2.length)
            (groupByKey (fun r => drawSig r.draw)
              (((groupByKey (fun r => r.draw.drwNo) rs).lookup n0).getD []))).head?
            = some best := by
          rw [hlookupc, hsort]
          rfl
        have hsig0 : drawSig r0.draw = best.1 := by
          have hr0mem : r0 ∈ best.2 := by rw [hb2]; exact List.mem_cons_self _ _
          rw [hbcont] at hr0mem
          exact of_decide_eq_true (List.mem_filter.mp hr0mem).2
        have hcount : sigCount (c0 :: cs) r0.draw = best.2.length := by
          unfold sigCount
          rw [hbcont]
          congr 1
          apply List.filter_congr
          intro a ha
          rw [hsig0]
        have hEmax : ∀ r ∈ (c0 :: cs), sigCount (c0 :: cs) r.draw ≤ best.2.length := by
          intro r hr
          have hk := mem_keys_groupByKey (fun r2 => drawSig r2.draw) (c0 :: cs) r hr
          rcases List.mem_map.mp hk with ⟨p, hp, hp1⟩
          have hp3 : p ∈ groupsSpec (fun r2 => drawSig r2.draw) (c0 :: cs) := by
            rw [← groupByKey_eq_groupsSpec]
            exact hp
          rcases groupsSpec_mem (fun r2 => drawSig r2.draw) (c0 :: cs) p hp3
            with ⟨hpcont, _⟩
          have heq : sigCount (c0 :: cs) r.draw = p.2.length := by
            unfold sigCount
            rw [hpcont]
            congr 1
            apply List.filter_congr
            intro a ha
            rw [hp1]
          rw [heq]
          exact hbestmax p hp
        have hfirst : (c0 :: cs).find?
            (fun r => decide (sigCount (c0 :: cs) r.draw = best.2.length)) = some r0 := by
          have hfiltsplit : (c0 :: cs).filter
              (fun y => decide (drawSig y.draw = best.1)) = r0 :: rest := by
            rw [← hbcont, hb2]
          rcases filter_head_split _ _ _ _ hfiltsplit with ⟨u, v, hsplit, hu⟩
          have hprefix := groupsSpec_prefix_keys (fun r2 => drawSig r2.draw) (c0 :: cs)
            preG best.1 best.2 postG
            (by rw [← groupByKey_eq_groupsSpec, hGsplit])
            u (r0 :: v) hsplit
            (fun y hy h5 => by
              have := hu y hy
              rw [decide_eq_false_iff_not] at this
              exact this h5)
          have husmall : ∀ y ∈ u,
              (fun r => decide (sigCount (c0 :: cs) r.draw = best.2.length)) y = false := by
            intro y hy
            have hykey := hprefix y hy
            rcases List.mem_map.mp hykey with ⟨p, hppre, hp1⟩
            have hpby : p ∈ groupByKey (fun r2 => drawSig r2.draw) (c0 :: cs) := by
              rw [hGsplit]
              exact List.mem_append_left _ hppre
            have hpby2 : p ∈ groupsSpec (fun r2 => drawSig r2.draw) (c0 :: cs) := by
              rw [← groupByKey_eq_groupsSpec]
              exact hpby
            rcases groupsSpec_mem (fun r2 => drawSig r2.draw) (c0 :: cs) p hpby2
              with ⟨hpcont, _⟩
            have heq : sigCount (c0 :: cs) y.draw = p.2.length := by
              unfold sigCount
              rw [hpcont]
              congr 1
              apply List.filter_congr
              intro a ha
              rw [hp1]
            rw [decide_eq_false_iff_not, heq]
            exact Nat.ne_of_lt (hGpre p hppre)
          have hstep1 : (c0 :: cs).find?
                (fun r => decide (sigCount (c0 :: cs) r.draw = best.2.length))
              = (u ++ r0 :: v).find?
                (fun r => decide (sigCount (c0 :: cs) r.draw = best.2.length)) := by
            rw [← hsplit]
          have hr0true : decide (sigCount (c0 :: cs) r0.draw = best.2.length) = true := by
            rw [decide_eq_true_iff]
            exact hcount
          rw [hstep1, find?_append_false _ u _ husmall, List.find?_cons, hr0true]
        refine ⟨_, pickConsensusLatest_eq_of rs n0 best r0 h1 h2 h3, ?_, ?_, ?_, rfl, ?_, ?_, ?_⟩
        · have hc0 : c0 ∈ rs.filter (fun r => decide (r.draw.drwNo = n0)) := by
            rw [hcands]
            exact List.mem_cons_self _ _
          rcases List.mem_filter.mp hc0 with ⟨hc0rs, hc0no⟩
          exact ⟨c0, hc0rs, of_decide_eq_true hc0no⟩
        · exact hBsome
        · exact hCnone
        · show best.2.length = sigCount (rs.filter (fun r => decide (r.draw.drwNo = n0))) r0.draw
          rw [hcands]
          exact hcount.symm
        · show ∀ r ∈ rs.filter (fun r => decide (r.draw.drwNo = n0)),
            sigCount (rs.filter (fun r2 => decide (r2.draw.drwNo = n0))) r.draw ≤ best.2.length
          rw [hcands]
          exact hEmax
        · refine ⟨r0, ?_, rfl⟩
          show (rs.filter (fun r => decide (r.draw.drwNo = n0))).find?
              (fun r => decide
                (sigCount (rs.filter (fun r2 => decide (r2.draw.drwNo = n0))) r.draw =
                  best.2.length)) = some r0
          rw [hcands]
          exact hfirst

/-- C2: on every non-empty list of fetch-latest results (with normalized,
hence finite, draw numbers, and pairwise-distinct source ids), the
consensus resolver picks the highest draw number supported by at least 2
sources when one exists, else the highest draw number seen; within the
chosen group the winner is the signature with the most supporting sources,
count ties broken by the earliest-discovered signature (formally: the
winning record is the first candidate whose signature count attains the
maximum), and `agreed` is true iff the winning support count is at least 2.
In particular three identical records yield `agreed = true` with count 3;
two identical plus one different yield the majority value with count 2 and
`agreed = true`; three pairwise-distinct records yield the first-seen value
with `agreed = false`. -/
theorem C2_consensus :
    (∀ rs : List SourceResult, rs ≠ [] →
      (∀ r ∈ rs, (r.draw.drwNo).isFinite = true) →
      (rs.map SourceResult.sourceId).Nodup →
      ∃ out, pickConsensusLatest rs = some out ∧
        (∃ r ∈ rs, r.draw.drwNo = out.latestNo) ∧
        ((∃ r ∈ rs, 2 ≤ supportCount rs r.draw.drwNo) →
          2 ≤ supportCount rs out.latestNo ∧
            ∀ r ∈ rs, 2 ≤ supportCount rs r.draw.drwNo →
              r.draw.drwNo.ival ≤ out.latestNo.ival) ∧
        ((∀ r ∈ rs, supportCount rs r.draw.drwNo < 2) →
          ∀ r ∈ rs, r.draw.drwNo.ival ≤ out.latestNo.ival) ∧
        out.agreed = decide (2 ≤ out.consensusCount) ∧
        out.consensusCount =
          sigCount (rs.filter (fun r => decide (r.draw.drwNo = out.latestNo)))
            out.consensusDraw ∧
        (∀ r ∈ rs.filter (fun r => decide (r.draw.drwNo = out.latestNo)),
          sigCount (rs.filter (fun r2 => decide (r2.draw.drwNo = out.latestNo))) r.draw ≤
            out.consensusCount) ∧
        (∃ rfirst,
          (rs.filter (fun r => decide (r.draw.drwNo = out.latestNo))).find?
              (fun r => decide
                (sigCount (rs.filter (fun r2 => decide (r2.draw.drwNo = out.latestNo))) r.draw =
                  out.consensusCount)) = some rfirst ∧
          out.consensusDraw = rfirst.draw)) ∧
    pickConsensusLatest
        [{ sourceId := "smok95-pages", draw := recL },
         { sourceId := "smok95-raw", draw := recL },
         { sourceId := "smok95-jsdelivr", draw := recL }] =
      some { latestNo := JsNum.num 101, consensusDraw := recL,
             agreed := true, consensusCount := 3 } ∧
    pickConsensusLatest
        [{ sourceId := "smok95-pages", draw := recL },
         { sourceId := "smok95-raw", draw := recLB },
         { sourceId := "smok95-jsdelivr", draw := recL }] =
      some { latestNo := JsNum.num 101, consensusDraw := recL,
             agreed := true, consensusCount := 2 } ∧
    pickConsensusLatest
        [{ sourceId := "smok95-pages", draw := recLB },
         { sourceId := "smok95-raw", draw := recL },
         { sourceId := "smok95-jsdelivr", draw := recLC }] =
      some { latestNo := JsNum.num 101, consensusDraw := recLB,
             agreed := false, consensusCount := 1 } :=
  ⟨pickConsensus_props, by decide, by decide, by decide⟩

/-- Witness for C2's general part at a concrete input. -/
theorem C2_consensus_witness :
    (pickConsensusLatest
        [{ sourceId := "smok95-pages", draw := recL },
         { sourceId := "smok95-raw", draw := recLB },
         { sourceId := "smok95-jsdelivr", draw := recL }]).isSome = true := by
  rcases C2_consensus.1
      [{ sourceId := "smok95-pages", draw := recL },
       { sourceId := "smok95-raw", draw := recLB },
       { sourceId := "smok95-jsdelivr", draw := recL }]
      (by decide) (by decide) (by decide) with ⟨out, hout, _⟩
  rw [hout]
  rfl

/-! ### Lemmas about the synchronization controller -/

theorem hasNo_iff_exists {l : List DrawRecord} {q : ℤ} :
    hasNo l q = true ↔ ∃ d ∈ l, d.drwNo = JsNum.num q := by
  unfold hasNo lastRec
  rw [Option.isSome_iff_exists]
  constructor
  · rintro ⟨d, hd⟩
    have hmem := List.mem_of_mem_getLast? (hd ▸ rfl : d ∈ (l.filter (fun d2 => decide (d2.drwNo = JsNum.num q))).getLast?)
    rcases List.mem_filter.mp hmem with ⟨h1, h2⟩
    exact ⟨d, h1, of_decide_eq_true h2⟩
  · rintro ⟨d, hd, hq⟩
    have hmem : d ∈ l.filter (fun d2 => decide (d2.drwNo = JsNum.num q)) :=
      List.mem_filter.mpr ⟨hd, decide_eq_true hq⟩
    cases hlast : (l.filter (fun d2 => decide (d2.drwNo = JsNum.num q))).getLast? with
    | some d2 => exact ⟨d2, rfl⟩
    | none =>
      rw [List.getLast?_eq_none_iff] at hlast
      rw [hlast] at hmem
      cases hmem

theorem hasNo_of_perm {l1 l2 : List DrawRecord} (h : l1.Perm l2) {q : ℤ} :
    hasNo l1 q = hasNo l2 q := by
  cases h1 : hasNo l1 q <;> cases h2 : hasNo l2 q
  · rfl
  · rcases hasNo_iff_exists.mp h2 with ⟨d, hd, hq⟩
    have := hasNo_iff_exists.mpr ⟨d, h.mem_iff.mpr hd, hq⟩
    rw [h1] at this
    cases this
  · rcases hasNo_iff_exists.mp h1 with ⟨d, hd, hq⟩
    have := hasNo_iff_exists.mpr ⟨d, h.mem_iff.mp hd, hq⟩
    rw [h2] at this
    cases this
  · rfl

theorem hasNo_mergeByNo_left {l : List DrawRecord} (xs : List DrawRecord) {q : ℤ}
    (h : hasNo l q = true) : hasNo (mergeByNo l xs) q = true := by
  unfold hasNo at h ⊢
  rw [lastRec_mergeByNo]
  cases hx : lastRec xs q with
  | some d => rfl
  | none =>
    cases hl : lastRec l q with
    | some d => rfl
    | none => rw [hl] at h; cases h

theorem hasNo_fillLoop (env : Env) (L : ℤ) :
    ∀ (fuel : Nat) (n : ℤ) (draws : List DrawRecord) (h : Health) (q : ℤ),
      hasNo draws q = true → hasNo (fillLoop env L fuel n draws h).1 q = true := by
  intro fuel
  induction fuel with
  | zero => intro n draws h q hq; exact hq
  | succ fuel ih =>
    intro n draws h q hq
    rw [fillLoop]
    by_cases hn : n ≤ L
    · rw [if_pos hn]
      cases hf : fetchDrawWithFallback env n with
      | some got => exact ih (n + 1) _ h q (hasNo_mergeByNo_left _ hq)
      | none => exact hq
    · rw [if_neg hn]
      exact hq

theorem hasNo_runFill (env : Env) (cur latest : JsNum) (draws : List DrawRecord)
    (h : Health) (q : ℤ) (hq : hasNo draws q = true) :
    hasNo (runFill env cur latest draws h).1 q = true := by
  unfold runFill
  by_cases h1 : jsLt cur latest = true
  · rw [if_pos h1]
    cases cur <;> cases latest <;> first
      | exact hq
      | exact hasNo_fillLoop env _ _ _ draws h q hq
  · rw [if_neg h1]
    exact hq

theorem hasNo_tailBody (env : Env) (n : ℤ) (draws : List DrawRecord) (h : Health)
    (q : ℤ) (hq : hasNo draws q = true) : hasNo (tailBody env n draws h).1 q = true := by
  simp only [tailBody]
  by_cases h1 : ((tailFetch env n).length < 2)
  · rw [if_pos h1]
    exact hq
  · rw [if_neg h1]
    cases (stableSortDescBy (fun g => g.2.length)
        (groupByKey (fun r => drawSig r.draw) (tailFetch env n))).head? with
    | none => exact hq
    | some best =>
      dsimp only
      by_cases h2 : best.2.length < 2
      · rw [if_pos h2]
        exact hq
      · rw [if_neg h2]
        cases best.2.head? with
        | none => exact hq
        | some b =>
          dsimp only
          by_cases h3 : (match draws.find? (fun d => jsStrictEq d.drwNo (JsNum.num n)) with
              | none => false
              | some localRec => decide (drawSig localRec = best.1)) = true
          · rw [if_pos h3]
            exact hq
          · rw [if_neg h3]
            exact hasNo_mergeByNo_left _ hq

theorem hasNo_tailLoop (env : Env) (lastA : ℤ) :
    ∀ (fuel : Nat) (n : ℤ) (draws : List DrawRecord) (h : Health) (q : ℤ),
      hasNo draws q = true → hasNo (tailLoop env lastA fuel n draws h).1 q = true := by
  intro fuel
  induction fuel with
  | zero => intro n draws h q hq; exact hq
  | succ fuel ih =>
    intro n draws h q hq
    rw [tailLoop]
    by_cases hn : n ≤ lastA
    · rw [if_pos hn]
      exact ih (n + 1) _ _ q (hasNo_tailBody env n draws h q hq)
    · rw [if_neg hn]
      exact hq

theorem hasNo_runTail (env : Env) (lastNoAfter : JsNum) (draws : List DrawRecord)
    (h : Health) (q : ℤ) (hq : hasNo draws q = true) :
    hasNo (runTail env lastNoAfter draws h).1 q = true := by
  unfold runTail
  cases lastNoAfter with
  | num a => exact hasNo_tailLoop env a _ _ draws h q hq
  | nan => exact hq
  | inf => exact hq
  | ninf => exact hq

theorem hasNo_mergeByNo_right (l : List DrawRecord) {xs : List DrawRecord} {q : ℤ}
    (h : hasNo xs q = true) : hasNo (mergeByNo l xs) q = true := by
  unfold hasNo at h ⊢
  rw [lastRec_mergeByNo]
  cases hx : lastRec xs q with
  | some d => rfl
  | none => rw [hx] at h; cases h

theorem hasNo_merge_single (draws : List DrawRecord) (d : DrawRecord) (v : ℤ)
    (hv : d.drwNo = JsNum.num v) : hasNo (mergeByNo draws [d]) v = true :=
  hasNo_mergeByNo_right _ (hasNo_iff_exists.mpr ⟨d, List.mem_singleton.mpr rfl, hv⟩)

theorem normalizeDraw_finite (item : RawDraw) (d : DrawRecord)
    (h : normalizeDraw item = some d) : d.drwNo.isFinite = true := by
  unfold normalizeDraw at h
  cases hd : toYmd item.date with
  | none => rw [hd] at h; cases h
  | some ds =>
    rw [hd] at h
    dsimp only at h
    by_cases hcond : ((numOf item.draw_no).isFinite
        && decide ((item.numbers.getD []).length = 6)) = true
    · rw [if_pos hcond] at h
      rw [Bool.and_eq_true] at hcond
      cases h
      exact hcond.1
    · rw [if_neg hcond] at h
      cases h

theorem tryDraw_finite (env : Env) (sid : String) (n : ℤ) (r : SourceResult)
    (h : tryDrawFromSource env sid n = some r) : r.draw.drwNo.isFinite = true := by
  unfold tryDrawFromSource at h
  cases hd : env.srcDraw sid n with
  | none => rw [hd] at h; cases h
  | some raw =>
    rw [hd] at h
    dsimp only at h
    cases hn : normalizeDraw raw with
    | none => rw [hn] at h; cases h
    | some d =>
      rw [hn] at h
      dsimp only at h
      cases h
      exact normalizeDraw_finite raw d hn

theorem firstSome_eq_some {α : Type} (f : String → Option α) :
    ∀ (l : List String) (r : α), firstSome f l = some r →
      ∃ pre sid post, l = pre ++ sid :: post ∧ (∀ s ∈ pre, f s = none) ∧ f sid = some r := by
  intro l
  induction l with
  | nil => intro r h; cases h
  | cons s ss ih =>
    intro r h
    rw [firstSome] at h
    cases hf : f s with
    | some r2 =>
      rw [hf] at h
      cases h
      refine ⟨[], s, ss, rfl, ?_, hf⟩
      intro t ht
      cases ht
    | none =>
      rw [hf] at h
      rcases ih r h with ⟨pre, sid, post, hl, hpre, hsid⟩
      refine ⟨s :: pre, sid, post, by rw [hl]; rfl, ?_, hsid⟩
      intro t ht
      rcases List.mem_cons.mp ht with h1 | h1
      · rw [h1]; exact hf
      · exact hpre t h1

theorem firstSome_eq_none {α : Type} (f : String → Option α) :
    ∀ l : List String, firstSome f l = none ↔ ∀ s ∈ l, f s = none := by
  intro l
  induction l with
  | nil => simp [firstSome]
  | cons s ss ih =>
    rw [firstSome]
    cases hf : f s with
    | some r =>
      simp only [List.mem_cons]
      constructor
      · intro h; cases h
      · intro h
        have := h s (Or.inl rfl)
        rw [hf] at this
        cases this
    | none =>
      simp only [List.mem_cons, ih]
      constructor
      · intro h t ht
        rcases ht with h1 | h1
        · rw [h1]; exact hf
        · exact h t h1
      · intro h t ht
        exact h t (Or.inr ht)

theorem fetchDraw_finite (env : Env) (n : ℤ) (r : SourceResult)
    (h : fetchDrawWithFallback env n = some r) : ∃ v : ℤ, r.draw.drwNo = JsNum.num v := by
  obtain ⟨pre, sid, post, _, _, hsid⟩ := firstSome_eq_some _ SOURCES r h
  exact isFinite_iff.mp (tryDraw_finite env sid n r hsid)

theorem allFinite_tailBody (env : Env) (n : ℤ) (draws : List DrawRecord) (h : Health)
    (hf : ∀ d ∈ draws, d.drwNo.isFinite = true) :
    ∀ d ∈ (tailBody env n draws h).1, d.drwNo.isFinite = true := by
  simp only [tailBody]
  by_cases h1 : ((tailFetch env n).length < 2)
  · rw [if_pos h1]
    exact hf
  · rw [if_neg h1]
    cases (stableSortDescBy (fun g => g.2.length)
        (groupByKey (fun r => drawSig r.draw) (tailFetch env n))).head? with
    | none => exact hf
    | some best =>
      dsimp only
      by_cases h2 : best.2.length < 2
      · rw [if_pos h2]
        exact hf
      · rw [if_neg h2]
        cases best.2.head? with
        | none => exact hf
        | some b =>
          dsimp only
          by_cases h3 : (match draws.find? (fun d => jsStrictEq d.drwNo (JsNum.num n)) with
              | none => false
              | some localRec => decide (drawSig localRec = best.1)) = true
          · rw [if_pos h3]
            exact hf
          · rw [if_neg h3]
            exact mergeByNo_finite _ _

theorem allFinite_tailLoop (env : Env) (lastA : ℤ) :
    ∀ (fuel : Nat) (n : ℤ) (draws : List DrawRecord) (h : Health),
      (∀ d ∈ draws, d.drwNo.isFinite = true) →
      ∀ d ∈ (tailLoop env lastA fuel n draws h).1, d.drwNo.isFinite = true := by
  intro fuel
  induction fuel with
  | zero => intro n draws h hf; exact hf
  | succ fuel ih =>
    intro n draws h hf
    rw [tailLoop]
    by_cases hn : n ≤ lastA
    · rw [if_pos hn]
      exact ih (n + 1) _ _ (allFinite_tailBody env n draws h hf)
    · rw [if_neg hn]
      exact hf

theorem allFinite_runTail (env : Env) (lastNoAfter : JsNum) (draws : List DrawRecord)
    (h : Health) (hf : ∀ d ∈ draws, d.drwNo.isFinite = true) :
    ∀ d ∈ (runTail env lastNoAfter draws h).1, d.drwNo.isFinite = true := by
  unfold runTail
  cases lastNoAfter with
  | num a => exact allFinite_tailLoop env a _ _ draws h hf
  | nan => exact hf
  | inf => exact hf
  | ninf => exact hf

theorem pairwise_le_getLast :
    ∀ (l : List DrawRecord), l.Pairwise (fun a b => a.drwNo.ival ≤ b.drwNo.ival) →
      ∀ d ∈ l, ∀ last, l.getLast? = some last → d.drwNo.ival ≤ last.drwNo.ival := by
  intro l
  induction l with
  | nil => intro _ d hd; cases hd
  | cons x xs ih =>
    intro hp d hd last hlast
    cases xs with
    | nil =>
      have h1 : x = last := by
        simp only [List.getLast?_singleton, Option.some.injEq] at hlast
        exact hlast
      rcases List.mem_singleton.mp hd with h2
      rw [h2, h1]
    | cons y ys =>
      rw [List.getLast?_cons_cons] at hlast
      rcases List.pairwise_cons.mp hp with ⟨hx, hxs⟩
      rcases List.mem_cons.mp hd with h | h
      · subst h
        exact hx last (List.mem_of_mem_getLast? hlast)
      · exact ih hxs d h last hlast

theorem getLast_sortByNo_ge {l : List DrawRecord} (hf : ∀ d ∈ l, d.drwNo.isFinite = true)
    {q : ℤ} (hq : hasNo l q = true) {last : DrawRecord}
    (hlast : (sortByNo l).getLast? = some last) :
    q ≤ last.drwNo.ival ∧ last.drwNo.isFinite = true := by
  rcases hasNo_iff_exists.mp hq with ⟨d, hd, hdq⟩
  have hdS : d ∈ sortByNo l := (sortByNo_perm l).mem_iff.mpr hd
  have h1 := pairwise_le_getLast _ (sortByNo_pairwise_le hf) d hdS last hlast
  have hdi : d.drwNo.ival = q := by rw [hdq]; rfl
  refine ⟨hdi ▸ h1, ?_⟩
  exact hf last ((sortByNo_perm l).mem_iff.mp (List.mem_of_mem_getLast? hlast))

theorem fill_reason_ne_behind (n : ℤ) :
    ("incremental_fetch_failed_at_" ++ toString n) ≠ "local_last_is_behind_latest" := by
  intro h
  have h2 := congrArg (fun s => s.data.head?) h
  simp only [String.append] at h2
  simp at h2

theorem tail_no2of3_ne_behind (n : ℤ) :
    ("tail_" ++ toString n ++ "_no_2of3_consensus") ≠ "local_last_is_behind_latest" := by
  intro h
  have h2 := congrArg (fun s => s.data.head?) h
  simp only [String.append] at h2
  simp at h2

theorem tail_patched_ne_behind (n : ℤ) :
    ("tail_" ++ toString n ++ "_patched_from_consensus") ≠ "local_last_is_behind_latest" := by
  intro h
  have h2 := congrArg (fun s => s.data.head?) h
  simp only [String.append] at h2
  simp at h2

theorem notBehind_fillLoop (env : Env) (L : ℤ) :
    ∀ (fuel : Nat) (n : ℤ) (draws : List DrawRecord) (h : Health),
      "local_last_is_behind_latest" ∉ h.reasons →
      "local_last_is_behind_latest" ∉ (fillLoop env L fuel n draws h).2.reasons := by
  intro fuel
  induction fuel with
  | zero => intro n draws h hn; exact hn
  | succ fuel ih =>
    intro n draws h hn
    rw [fillLoop]
    by_cases hle : n ≤ L
    · rw [if_pos hle]
      cases hf : fetchDrawWithFallback env n with
      | some got => exact ih (n + 1) _ h hn
      | none =>
        simp only [fillFail]
        intro hmem
        rcases List.mem_append.mp hmem with h1 | h1
        · exact hn h1
        · exact fill_reason_ne_behind n (List.mem_singleton.mp h1).symm
    · rw [if_neg hle]
      exact hn

theorem notBehind_runFill (env : Env) (cur latest : JsNum) (draws : List DrawRecord)
    (h : Health) (hn : "local_last_is_behind_latest" ∉ h.reasons) :
    "local_last_is_behind_latest" ∉ (runFill env cur latest draws h).2.reasons := by
  unfold runFill
  by_cases h1 : jsLt cur latest = true
  · rw [if_pos h1]
    cases cur <;> cases latest <;> first
      | exact hn
      | exact notBehind_fillLoop env _ _ _ draws h hn
  · rw [if_neg h1]
    exact hn

theorem notBehind_tailBody (env : Env) (n : ℤ) (draws : List DrawRecord) (h : Health)
    (hn : "local_last_is_behind_latest" ∉ h.reasons) :
    "local_last_is_behind_latest" ∉ (tailBody env n draws h).2.reasons := by
  simp only [tailBody]
  by_cases h1 : ((tailFetch env n).length < 2)
  · rw [if_pos h1]
    exact hn
  · rw [if_neg h1]
    cases (stableSortDescBy (fun g => g.2.length)
        (groupByKey (fun r => drawSig r.draw) (tailFetch env n))).head? with
    | none => exact hn
    | some best =>
      dsimp only
      by_cases h2 : best.2.length < 2
      · rw [if_pos h2]
        intro hmem
        rcases List.mem_append.mp hmem with hm | hm
        · exact hn hm
        · exact tail_no2of3_ne_behind n (List.mem_singleton.mp hm).symm
      · rw [if_neg h2]
        cases best.2.head? with
        | none => exact hn
        | some b =>
          dsimp only
          by_cases h3 : (match draws.find? (fun d => jsStrictEq d.drwNo (JsNum.num n)) with
              | none => false
              | some localRec => decide (drawSig localRec = best.1)) = true
          · rw [if_pos h3]
            exact hn
          · rw [if_neg h3]
            intro hmem
            rcases List.mem_append.mp hmem with hm | hm
            · exact hn hm
            · exact tail_patched_ne_behind n (List.mem_singleton.mp hm).symm

theorem notBehind_tailLoop (env : Env) (lastA : ℤ) :
    ∀ (fuel : Nat) (n : ℤ) (draws : List DrawRecord) (h : Health),
      "local_last_is_behind_latest" ∉ h.reasons →
      "local_last_is_behind_latest" ∉ (tailLoop env lastA fuel n draws h).2.reasons := by
  intro fuel
  induction fuel with
  | zero => intro n draws h hn; exact hn
  | succ fuel ih =>
    intro n draws h hn
    rw [tailLoop]
    by_cases hle : n ≤ lastA
    · rw [if_pos hle]
      exact ih (n + 1) _ _ (notBehind_tailBody env n draws h hn)
    · rw [if_neg hle]
      exact hn

theorem notBehind_runTail (env : Env) (lastNoAfter : JsNum) (draws : List DrawRecord)
    (h : Health) (hn : "local_last_is_behind_latest" ∉ h.reasons) :
    "local_last_is_behind_latest" ∉ (runTail env lastNoAfter draws h).2.reasons := by
  unfold runTail
  cases lastNoAfter with
  | num a => exact notBehind_tailLoop env a _ _ draws h hn
  | nan => exact hn
  | inf => exact hn
  | ninf => exact hn

theorem notBehind_chooseStrategy (env : Env) (e : JsNum) (h1 : Health)
    (c : ConsensusOutcome) (hn : "local_last_is_behind_latest" ∉ h1.reasons) :
    "local_last_is_behind_latest" ∉ (chooseStrategy env e h1 c).2.reasons := by
  simp only [chooseStrategy]
  by_cases hb : (jsStrictEq e (JsNum.num 0)
      || jsLt (JsNum.num BOOTSTRAP_GAP_THRESHOLD) (jsSub c.latestNo e)) = true
  · rw [if_pos hb]
    cases fetchAllWithFallback env with
    | some all =>
      dsimp only
      cases all.2.getLast? with
      | none => exact hn
      | some last =>
        dsimp only
        by_cases h2 : jsStrictEq last.drwNo c.latestNo = true
        · rw [if_pos h2]
          by_cases h3 : drawSig last = drawSig c.consensusDraw
          · rw [if_pos h3]
            exact hn
          · rw [if_neg h3]
            intro hmem
            rcases List.mem_append.mp hmem with hm | hm
            · exact hn hm
            · exact absurd (List.mem_singleton.mp hm) (by decide)
        · rw [if_neg h2]
          intro hmem
          rcases List.mem_append.mp hmem with hm | hm
          · exact hn hm
          · exact absurd (List.mem_singleton.mp hm) (by decide)
    | none =>
      dsimp only
      by_cases h2 : jsLt (JsNum.num 0) e = true
      · rw [if_pos h2]
        intro hmem
        rcases List.mem_append.mp hmem with hm | hm
        · exact hn hm
        · exact absurd (List.mem_singleton.mp hm) (by decide)
      · rw [if_neg h2]
        intro hmem
        rcases List.mem_append.mp hmem with hm | hm
        · exact hn hm
        · exact absurd (List.mem_singleton.mp hm) (by decide)
  · rw [if_neg hb]
    exact hn

theorem postFill_written (env : Env) (c : ConsensusOutcome) (draws0 : List DrawRecord)
    (h0 : Health) (qc : ℤ) (hqc : c.consensusDraw.drwNo = JsNum.num qc) :
    ∃ l p, postFillFinalize env c draws0 h0 = RunOutcome.written l p ∧
      hasNo l qc = true ∧
      (∀ q : ℤ, hasNo draws0 q = true → hasNo l q = true) ∧
      (c.latestNo = JsNum.num qc →
        ("local_last_is_behind_latest" ∉ h0.reasons →
          "local_last_is_behind_latest" ∉ p.health.reasons) ∧
        ∃ last, l.getLast? = some last ∧ jsLt last.drwNo c.latestNo = false) := by
  simp only [postFillFinalize]
  have hfin1 : ∀ d ∈ mergeByNo draws0 [c.consensusDraw], d.drwNo.isFinite = true :=
    mergeByNo_finite _ _
  set draws1 := mergeByNo draws0 [c.consensusDraw] with hd1
  set dh := runTail env (lastNoOf draws1) draws1 h0 with hdh
  have hfin2 : ∀ d ∈ dh.1, d.drwNo.isFinite = true := by
    rw [hdh]; exact allFinite_runTail env _ _ h0 hfin1
  have hq1 : hasNo draws1 qc = true := by
    rw [hd1]; exact hasNo_merge_single draws0 _ qc hqc
  have hq2 : hasNo dh.1 qc = true := by
    rw [hdh]; exact hasNo_runTail env _ _ h0 qc hq1
  have hql : hasNo (sortByNo dh.1) qc = true := by
    rw [hasNo_of_perm (sortByNo_perm _)]; exact hq2
  have hne : ¬ (sortByNo dh.1).getLast? = none := by
    intro hnil
    rcases hasNo_iff_exists.mp hql with ⟨d, hd, _⟩
    rw [List.getLast?_eq_none_iff] at hnil
    rw [hnil] at hd
    cases hd
  cases hlast : (sortByNo dh.1).getLast? with
  | none => exact absurd hlast hne
  | some last =>
    dsimp only
    refine ⟨sortByNo dh.1, _, rfl, hql, ?_, ?_⟩
    · intro q hq0
      rw [hasNo_of_perm (sortByNo_perm _)]
      rw [hdh]
      apply hasNo_runTail
      rw [hd1]
      exact hasNo_mergeByNo_left _ hq0
    · intro hlat
      obtain ⟨hge, hlfin⟩ := getLast_sortByNo_ge hfin2 hq2 hlast
      rcases isFinite_iff.mp hlfin with ⟨a, ha⟩
      have hge2 : qc ≤ a := by rw [ha] at hge; exact hge
      have hflt : jsLt last.drwNo c.latestNo = false := by
        rw [ha, hlat]
        exact decide_eq_false (not_lt.mpr hge2)
      refine ⟨?_, last, hlast, hflt⟩
      intro hnb
      dsimp only
      have hcond : ¬ (jsLt last.drwNo c.latestNo = true) := by
        rw [hflt]; exact Bool.false_ne_true
      rw [if_neg hcond]
      rw [hdh]
      exact notBehind_runTail env _ _ h0 hnb

theorem postFill_not_fatal (env : Env) (c : ConsensusOutcome) (draws0 : List DrawRecord)
    (h0 : Health) (qc : ℤ) (hqc : c.consensusDraw.drwNo = JsNum.num qc) :
    isFatalRun (postFillFinalize env c draws0 h0) = false := by
  obtain ⟨l, p, heq, -, -, -⟩ := postFill_written env c draws0 h0 qc hqc
  rw [heq]
  rfl

theorem hasNo_postFill (env : Env) (c : ConsensusOutcome) (draws0 : List DrawRecord)
    (h0 : Health) (q : ℤ) (hq : hasNo draws0 q = true) :
    ∀ l p, postFillFinalize env c draws0 h0 = RunOutcome.written l p →
      hasNo l q = true := by
  intro l p heq
  simp only [postFillFinalize] at heq
  cases hlast : (sortByNo (runTail env (lastNoOf (mergeByNo draws0 [c.consensusDraw]))
      (mergeByNo draws0 [c.consensusDraw]) h0).1).getLast? with
  | none => rw [hlast] at heq; cases heq
  | some last =>
    rw [hlast] at heq
    dsimp only at heq
    injection heq with h1 h2
    rw [← h1]
    rw [hasNo_of_perm (sortByNo_perm _)]
    exact hasNo_runTail env _ _ h0 q (hasNo_mergeByNo_left _ hq)

theorem pickConsensus_basic (rs : List SourceResult) (hne : rs ≠ [])
    (hfin : ∀ r ∈ rs, r.draw.drwNo.isFinite = true)
    (hnd : (rs.map SourceResult.sourceId).Nodup) :
    ∃ out, pickConsensusLatest rs = some out ∧
      out.consensusDraw.drwNo = out.latestNo ∧ out.latestNo.isFinite = true := by
  obtain ⟨out, hpick, hlatmem, -, -, -, -, -, ⟨rfirst, hfind, hcd⟩⟩ :=
    pickConsensus_props rs hne hfin hnd
  refine ⟨out, hpick, ?_, ?_⟩
  · rw [hcd]
    have hmem := List.mem_of_find?_eq_some hfind
    exact of_decide_eq_true (List.mem_filter.mp hmem).2
  · rcases hlatmem with ⟨r, hr, hrno⟩
    rw [← hrno]
    exact hfin r hr

theorem hasNo_chooseStrategy (env : Env) (h1 : Health) (c : ConsensusOutcome) (q : ℤ)
    (hq : hasNo env.existing q = true)
    (hpos : jsLt (JsNum.num 0) (lastNoOf env.existing) = true)
    (hcase : fetchAllWithFallback env = none ∨
      (jsStrictEq (lastNoOf env.existing) (JsNum.num 0)
        || jsLt (JsNum.num BOOTSTRAP_GAP_THRESHOLD)
            (jsSub c.latestNo (lastNoOf env.existing))) = false) :
    hasNo (chooseStrategy env (lastNoOf env.existing) h1 c).1 q = true := by
  simp only [chooseStrategy]
  rcases hcase with hall | hnb
  · by_cases hb : (jsStrictEq (lastNoOf env.existing) (JsNum.num 0)
        || jsLt (JsNum.num BOOTSTRAP_GAP_THRESHOLD)
            (jsSub c.latestNo (lastNoOf env.existing))) = true
    · rw [if_pos hb, hall]
      dsimp only
      rw [if_pos hpos]
      exact hq
    · rw [if_neg hb]
      rw [hasNo_of_perm (sortByNo_perm _)]
      exact hq
  · have hnb2 : ¬ ((jsStrictEq (lastNoOf env.existing) (JsNum.num 0)
        || jsLt (JsNum.num BOOTSTRAP_GAP_THRESHOLD)
            (jsSub c.latestNo (lastNoOf env.existing))) = true) := by
      rw [hnb]; exact Bool.false_ne_true
    rw [if_neg hnb2]
    rw [hasNo_of_perm (sortByNo_perm _)]
    exact hq

theorem fillMergedPrefix_hasNo (env : Env) :
    ∀ (k : Nat) (n : ℤ) (draws : List DrawRecord) (q : ℤ),
      hasNo draws q = true → hasNo (fillMergedPrefix env n k draws) q = true := by
  intro k
  induction k with
  | zero => intro n draws q hq; exact hq
  | succ k ih =>
    intro n draws q hq
    rw [fillMergedPrefix]
    cases hf : fetchDrawWithFallback env n with
    | some got => exact ih (n + 1) _ q (hasNo_mergeByNo_left _ hq)
    | none => exact hq

theorem fillMergedPrefix_mem (env : Env) :
    ∀ (k : Nat) (n : ℤ) (draws : List DrawRecord) (j : Nat) (r : SourceResult),
      j < k →
      (∀ i : Nat, i < k → (fetchDrawWithFallback env (n + (i : ℤ))).isSome = true) →
      fetchDrawWithFallback env (n + (j : ℤ)) = some r →
      hasNo (fillMergedPrefix env n k draws) r.draw.drwNo.ival = true := by
  intro k
  induction k with
  | zero => intro n draws j r hj; exact absurd hj (Nat.not_lt_zero j)
  | succ k ih =>
    intro n draws j r hj hall hr
    rw [fillMergedPrefix]
    have hn0 : n + ((0 : Nat) : ℤ) = n := by push_cast; ring
    cases j with
    | zero =>
      rw [hn0] at hr
      rw [hr]
      rcases fetchDraw_finite env n r hr with ⟨v, hv⟩
      have hiv : r.draw.drwNo.ival = v := by rw [hv]; rfl
      rw [hiv]
      exact fillMergedPrefix_hasNo env k (n + 1) _ v (hasNo_merge_single draws _ v hv)
    | succ j =>
      have h0 := hall 0 (Nat.succ_pos k)
      rw [hn0] at h0
      cases hf : fetchDrawWithFallback env n with
      | none => rw [hf] at h0; cases h0
      | some got =>
        have hcast : n + ((j + 1 : Nat) : ℤ) = n + 1 + (j : ℤ) := by push_cast; ring
        rw [hcast] at hr
        refine ih (n + 1) _ j r (by omega) ?_ hr
        intro i hi
        have := hall (i + 1) (by omega)
        have hcast2 : n + ((i + 1 : Nat) : ℤ) = n + 1 + (i : ℤ) := by push_cast; ring
        rwa [hcast2] at this

theorem fillLoop_stops (env : Env) (L : ℤ) :
    ∀ (k fuel : Nat) (n : ℤ) (draws : List DrawRecord) (h : Health),
      (∀ j : Nat, j < k → (fetchDrawWithFallback env (n + (j : ℤ))).isSome = true) →
      fetchDrawWithFallback env (n + (k : ℤ)) = none →
      n + (k : ℤ) ≤ L → k < fuel →
      fillLoop env L fuel n draws h =
        (fillMergedPrefix env n k draws, fillFail h (n + (k : ℤ))) := by
  intro k
  induction k with
  | zero =>
    intro fuel n draws h hsucc hfail hle hfuel
    cases fuel with
    | zero => exact absurd hfuel (Nat.not_lt_zero 0)
    | succ fuel =>
      have hn0 : n + ((0 : Nat) : ℤ) = n := by push_cast; ring
      rw [hn0] at hfail hle ⊢
      rw [fillLoop]
      rw [if_pos hle]
      rw [hfail]
      rfl
  | succ k ih =>
    intro fuel n draws h hsucc hfail hle hfuel
    cases fuel with
    | zero => exact absurd hfuel (Nat.not_lt_zero _)
    | succ fuel =>
      have hn : n ≤ L := by
        have : (0 : ℤ) ≤ ((k + 1 : Nat) : ℤ) := by positivity
        omega
      rw [fillLoop]
      rw [if_pos hn]
      have hn0 : n + ((0 : Nat) : ℤ) = n := by push_cast; ring
      have h0 := hsucc 0 (Nat.succ_pos k)
      rw [hn0] at h0
      cases hf : fetchDrawWithFallback env n with
      | none => rw [hf] at h0; cases h0
      | some got =>
        have hstep : fillMergedPrefix env n (k + 1) draws
            = fillMergedPrefix env (n + 1) k (mergeByNo draws [got.draw]) := by
          rw [fillMergedPrefix, hf]
        rw [hstep]
        have hcastk : n + ((k + 1 : Nat) : ℤ) = n + 1 + (k : ℤ) := by push_cast; ring
        rw [hcastk] at hfail hle ⊢
        refine ih fuel (n + 1) (mergeByNo draws [got.draw]) h ?_ hfail hle (by omega)
        intro j hj
        have := hsucc (j + 1) (by omega)
        have hcast2 : n + ((j + 1 : Nat) : ℤ) = n + 1 + (j : ℤ) := by push_cast; ring
        rwa [hcast2] at this

theorem runMain_pick_eq (env : Env) (c : ConsensusOutcome)
    (hlen : ¬ env.latestResults.length = 0)
    (hp : pickConsensusLatest env.latestResults = some c) :
    ∃ d0 h0, runMain env = postFillFinalize env c d0 h0 ∧
      "local_last_is_behind_latest" ∉ h0.reasons ∧
      (∀ q : ℤ, hasNo env.existing q = true →
        jsLt (JsNum.num 0) (lastNoOf env.existing) = true →
        (fetchAllWithFallback env = none ∨
          (jsStrictEq (lastNoOf env.existing) (JsNum.num 0)
            || jsLt (JsNum.num BOOTSTRAP_GAP_THRESHOLD)
                (jsSub c.latestNo (lastNoOf env.existing))) = false) →
        hasNo d0 q = true) := by
  simp only [runMain]
  rw [if_neg hlen, hp]
  dsimp only
  refine ⟨_, _, rfl, ?_, ?_⟩
  · apply notBehind_runFill
    apply notBehind_chooseStrategy
    by_cases ha : c.agreed = true
    · rw [if_pos ha]
      intro hmem
      exact absurd hmem (List.not_mem_nil _)
    · rw [if_neg ha]
      intro hmem
      rcases List.mem_append.mp hmem with hm | hm
      · exact absurd hm (List.not_mem_nil _)
      · exact absurd (List.mem_singleton.mp hm) (by decide)
  · intro q hq hpos hcase
    apply hasNo_runFill
    exact hasNo_chooseStrategy env _ c q hq hpos hcase

/-- C7: during incremental fill from a current highest `qc` strictly below a
finite consensus target `qL`, draw numbers are processed sequentially from
`qc + 1`; each is fetched across the adapters in priority order (the first
succeeding adapter wins) and merged into the ledger immediately; at the
first draw number `qc + 1 + k` on which every adapter fails the loop stops
— the result is exactly the prefix of merges strictly below the failure
point, so no higher draw number is attempted — the health is marked
degraded with the reason naming the failed number, and both every
previously held draw number and every draw number merged before the
failure are kept in the resulting ledger. -/
theorem C7_incremental_fill (env : Env) (qc qL : ℤ) (k : Nat)
    (draws : List DrawRecord) (h : Health)
    (hlt : qc < qL)
    (hsucc : ∀ j : Nat, j < k →
      (fetchDrawWithFallback env (qc + 1 + (j : ℤ))).isSome = true)
    (hfail : fetchDrawWithFallback env (qc + 1 + (k : ℤ)) = none)
    (hle : qc + 1 + (k : ℤ) ≤ qL) :
    runFill env (JsNum.num qc) (JsNum.num qL) draws h =
      (fillMergedPrefix env (qc + 1) k draws, fillFail h (qc + 1 + (k : ℤ))) ∧
    (fillFail h (qc + 1 + (k : ℤ))).status = "degraded" ∧
    ("incremental_fetch_failed_at_" ++ toString (qc + 1 + (k : ℤ))) ∈
      (fillFail h (qc + 1 + (k : ℤ))).reasons ∧
    (∀ q : ℤ, hasNo draws q = true →
      hasNo (fillMergedPrefix env (qc + 1) k draws) q = true) ∧
    (∀ j : Nat, j < k → ∀ r, fetchDrawWithFallback env (qc + 1 + (j : ℤ)) = some r →
      hasNo (fillMergedPrefix env (qc + 1) k draws) r.draw.drwNo.ival = true) ∧
    (∀ n : ℤ, ∀ r : SourceResult, fetchDrawWithFallback env n = some r →
      ∃ pre sid post, SOURCES = pre ++ sid :: post ∧
        (∀ s ∈ pre, tryDrawFromSource env s n = none) ∧
        tryDrawFromSource env sid n = some r) := by
  refine ⟨?_, rfl, ?_, ?_, ?_, ?_⟩
  · unfold runFill
    have hjslt : jsLt (JsNum.num qc) (JsNum.num qL) = true := decide_eq_true hlt
    rw [if_pos hjslt]
    dsimp only
    exact fillLoop_stops env qL k (Int.toNat (qL - qc)) (qc + 1) draws h hsucc hfail hle
      (by omega)
  · simp [fillFail]
  · exact fun q hq => fillMergedPrefix_hasNo env k (qc + 1) draws q hq
  · exact fun j hj r hr => fillMergedPrefix_mem env k (qc + 1) draws j r hj hsucc hr
  · intro n r hr
    exact firstSome_eq_some (fun sid => tryDrawFromSource env sid n) SOURCES r hr

theorem C7_incremental_fill_witness :
    runFill envFill (JsNum.num 150) (JsNum.num 200) [rec150] initialHealth =
      (fillMergedPrefix envFill (150 + 1) 1 [rec150],
       fillFail initialHealth (150 + 1 + ((1 : Nat) : ℤ))) :=
  (C7_incremental_fill envFill 150 200 1 [rec150] initialHealth (by decide)
    (fun j hj => by
      have hj0 : j = 0 := by omega
      subst hj0
      decide)
    (by decide) (by decide)).1

/-- C3: modelling the latest-fetch results as normalizer-produced (finite
draw numbers) and one-per-source (distinct source ids), the run aborts with
a non-zero exit if and only if every source's fetch-latest attempt failed
and the local ledger is empty; in every other terminal condition the ledger
and statistics files are written and the process exits 0. -/
theorem C3_exit_code (env : Env)
    (hfin : ∀ r ∈ env.latestResults, r.draw.drwNo.isFinite = true)
    (hnd : (env.latestResults.map SourceResult.sourceId).Nodup) :
    isFatalRun (runMain env) = true ↔ env.latestResults = [] ∧ env.existing = [] := by
  constructor
  · intro hf
    by_cases hlr : env.latestResults = []
    · refine ⟨hlr, ?_⟩
      by_cases hex : env.existing = []
      · exact hex
      · exfalso
        have hlen : env.latestResults.length = 0 := by rw [hlr]; rfl
        have hexlen : 0 < env.existing.length := List.length_pos.mpr hex
        simp only [runMain] at hf
        rw [if_pos hlen] at hf
        rw [if_pos hexlen] at hf
        cases hlast : (sortByNo env.existing).getLast? with
        | none =>
          rw [List.getLast?_eq_none_iff] at hlast
          have hlp := (sortByNo_perm env.existing).length_eq
          rw [hlast] at hlp
          rw [← hlp] at hexlen
          exact absurd hexlen (lt_irrefl 0)
        | some last =>
          rw [hlast] at hf
          exact Bool.false_ne_true hf
    · exfalso
      have hlen : ¬ env.latestResults.length = 0 := by
        intro h0; exact hlr (List.length_eq_zero.mp h0)
      obtain ⟨out, hpick, hdrw, hlatfin⟩ := pickConsensus_basic env.latestResults hlr hfin hnd
      rcases isFinite_iff.mp hlatfin with ⟨qc, hq⟩
      simp only [runMain] at hf
      rw [if_neg hlen, hpick] at hf
      dsimp only at hf
      rw [postFill_not_fatal env out _ _ qc (by rw [hdrw]; exact hq)] at hf
      exact Bool.false_ne_true hf
  · rintro ⟨h1, h2⟩
    simp only [runMain, h1, h2]
    rfl

theorem C3_exit_code_witness :
    isFatalRun (runMain envLocalOnly) = true ↔
      envLocalOnly.latestResults = [] ∧ envLocalOnly.existing = [] :=
  C3_exit_code envLocalOnly (by decide) (by decide)

/-- C10: modelling the latest-fetch results as normalizer-produced (finite
draw numbers) and one-per-source (distinct source ids), the unconditional
merge of the consensus record guarantees that the final ledger's highest
draw number is at least the consensus target, so the finalize check
"highest still trails the target" never fires: the degraded reason
`local_last_is_behind_latest` is never in the written health report on any
run, and whenever a consensus target exists the written ledger's last
record is not behind it. -/
theorem C10_behind_never (env : Env)
    (hfin : ∀ r ∈ env.latestResults, r.draw.drwNo.isFinite = true)
    (hnd : (env.latestResults.map SourceResult.sourceId).Nodup) :
    (∀ hh, writtenHealth (runMain env) = some hh →
      "local_last_is_behind_latest" ∉ hh.reasons) ∧
    (∀ c, pickConsensusLatest env.latestResults = some c →
      ∀ l, writtenDraws (runMain env) = some l →
        ∃ last, l.getLast? = some last ∧ jsLt last.drwNo c.latestNo = false) := by
  by_cases hlr : env.latestResults = []
  · constructor
    · intro hh hw
      have hlen : env.latestResults.length = 0 := by rw [hlr]; rfl
      simp only [runMain] at hw
      rw [if_pos hlen] at hw
      by_cases hex : 0 < env.existing.length
      · rw [if_pos hex] at hw
        cases hlast : (sortByNo env.existing).getLast? with
        | none => rw [hlast] at hw; cases hw
        | some last =>
          rw [hlast] at hw
          dsimp only [writtenHealth] at hw
          injection hw with hw1
          rw [← hw1]
          dsimp only
          intro hmem
          rcases List.mem_append.mp hmem with hm | hm
          · exact absurd hm (List.not_mem_nil _)
          · exact absurd (List.mem_singleton.mp hm) (by decide)
      · rw [if_neg hex] at hw
        cases hw
    · intro c hc
      rw [hlr] at hc
      have hnone : pickConsensusLatest ([] : List SourceResult) = none := rfl
      rw [hnone] at hc
      cases hc
  · have hlen : ¬ env.latestResults.length = 0 := by
      intro h0; exact hlr (List.length_eq_zero.mp h0)
    obtain ⟨out, hpick, hdrw, hlatfin⟩ := pickConsensus_basic env.latestResults hlr hfin hnd
    rcases isFinite_iff.mp hlatfin with ⟨qc, hq⟩
    have hqc : out.consensusDraw.drwNo = JsNum.num qc := by rw [hdrw]; exact hq
    obtain ⟨d0, h0, hrm, hnb0, -⟩ := runMain_pick_eq env out hlen hpick
    obtain ⟨l0, p0, heq, -, -, hcond⟩ := postFill_written env out d0 h0 qc hqc
    constructor
    · intro hh hw
      rw [hrm, heq] at hw
      dsimp only [writtenHealth] at hw
      injection hw with hw1
      rw [← hw1]
      exact (hcond hq).1 hnb0
    · intro c hc l hw
      have hceq : c = out := by
        rw [hpick] at hc
        exact (Option.some.inj hc).symm
      rw [hceq]
      rw [hrm, heq] at hw
      dsimp only [writtenDraws] at hw
      injection hw with hw1
      rw [← hw1]
      exact (hcond hq).2

theorem C10_behind_never_witness :
    "local_last_is_behind_latest" ∉
      ({ status := "degraded",
         reasons := ["latest_consensus_not_2of3", "incremental_fetch_failed_at_151"],
         used := { mode := some "incremental", sourceId := some "multi",
                   note := some "stopped_at=151" },
         validatedTail := { attempted := 5, patched := 0, mismatched := 0 } } : Health).reasons :=
  (C10_behind_never envIncr (by decide) (by decide)).1 _ (by decide)

/-- C1 counterexample: the bootstrap branch accepts the bulk `all.json`
payload wholesale, so a run whose consensus target is far ahead of the
local ledger replaces the ledger with the fetched payload and the locally
held draw number 1 is dropped from the written ledger. -/
theorem C1_counterexample :
    hasNo envC1.existing 1 = true ∧
    writtenDraws (runMain envC1) = some [rec200] ∧
    hasNo [rec200] 1 = false := by decide

/-- C1 amended: draw numbers present in the loaded ledger are preserved in
the written ledger on every run that does not accept a bulk bootstrap
payload — that is, whenever the local ledger's highest draw number is
positive and either every source's `all.json` fetch fails or the bootstrap
trigger (empty ledger or gap above the threshold) does not fire.  On the
bootstrap path the ledger is replaced wholesale and this preservation fails
(see the counterexample). -/
theorem C1_keys_preserved_without_bootstrap (env : Env) (q : ℤ)
    (hq : hasNo env.existing q = true)
    (hpos : jsLt (JsNum.num 0) (lastNoOf env.existing) = true)
    (hnb : fetchAllWithFallback env = none ∨
      ∀ c : ConsensusOutcome, pickConsensusLatest env.latestResults = some c →
        (jsStrictEq (lastNoOf env.existing) (JsNum.num 0)
          || jsLt (JsNum.num BOOTSTRAP_GAP_THRESHOLD)
              (jsSub c.latestNo (lastNoOf env.existing))) = false) :
    ∀ l, writtenDraws (runMain env) = some l → hasNo l q = true := by
  intro l hw
  by_cases hlr : env.latestResults.length = 0
  · simp only [runMain] at hw
    rw [if_pos hlr] at hw
    by_cases hex : 0 < env.existing.length
    · rw [if_pos hex] at hw
      cases hlast : (sortByNo env.existing).getLast? with
      | none => rw [hlast] at hw; cases hw
      | some last =>
        rw [hlast] at hw
        dsimp only [writtenDraws] at hw
        injection hw with hw1
        rw [← hw1]
        rw [hasNo_of_perm (sortByNo_perm _)]
        exact hq
    · rw [if_neg hex] at hw
      cases hw
  · cases hpick : pickConsensusLatest env.latestResults with
    | none =>
      simp only [runMain] at hw
      rw [if_neg hlr, hpick] at hw
      cases hw
    | some c =>
      obtain ⟨d0, h0, hrm, -, hkeys⟩ := runMain_pick_eq env c hlr hpick
      have hd0 : hasNo d0 q = true := by
        apply hkeys q hq hpos
        rcases hnb with h | h
        · exact Or.inl h
        · exact Or.inr (h c hpick)
      rw [hrm] at hw
      cases hpf : postFillFinalize env c d0 h0 with
      | fatal m => rw [hpf] at hw; cases hw
      | written l2 p2 =>
        rw [hpf] at hw
        dsimp only [writtenDraws] at hw
        injection hw with hw1
        rw [← hw1]
        exact hasNo_postFill env c d0 h0 q hd0 l2 p2 hpf

theorem C1_keys_preserved_witness : hasNo [rec150, rec200] 150 = true :=
  C1_keys_preserved_without_bootstrap envIncr 150 (by decide) (by decide)
    (Or.inl (by decide)) [rec150, rec200] (by decide)
